import Mathlib

/-!
# Verification of the rdm multi-connection download core

Shallow embedding of the `rdm_core` crate:

* `create_segments` (src/rdm_core/src/downloader/strategy/multipart_download_strategy.rs)
* `download_segment` (src/rdm_core/src/downloader/segment_grabber.rs)
* the `download`/`postprocess` phases of `MultipartDownloadStrategy`
* `ProgressNotifier::run` (src/rdm_core/src/progress/notifier.rs)
* `extract_filename` and its helpers (segment_grabber.rs)

Machine integers (`i64`, `u64`) are modelled as `Int`/`Nat`; the one cast
whose wrap-around is reachable (`file_size as i64` in `create_segments`)
is modelled explicitly by `u64ToI64`.
-/

/-- `SegmentState` from the crate's types module. -/
inductive SegmentState where
  | notStarted
  | finished
  | downloading
  | failed
deriving DecidableEq, Repr

/-- A download segment as planned by `create_segments`: the `offset` and
`length` fields of the Rust `Segment` (`i64` each).  The opaque UUID id and
the bookkeeping fields do not take part in the planner claims. -/
structure Seg where
  offset : Int
  length : Int
deriving DecidableEq, Repr

/-- `MIN_SEGMENT_SIZE` from multipart_download_strategy.rs: 256 KiB. -/
def MIN_SEGMENT_SIZE : Int := 256 * 1024

/-- The `file_size as i64` cast in `create_segments`: Rust `as` casts between
integers wrap, so a `u64` value `≥ 2^63` becomes negative. -/
def u64ToI64 (n : Nat) : Int :=
  if n < 2 ^ 63 then (n : Int) else (n : Int) - 2 ^ 64

/-- Index returned by
`segments.iter().enumerate().max_by_key(|(_, s)| s.length)` in
`create_segments`: the index of the LAST segment of maximal `length`
(Rust's `max_by_key` returns the last maximal element). -/
def maxLenIdx : List Seg → Nat
  | [] => 0
  | s :: rest =>
    if rest = [] then 0
    else
      let j := maxLenIdx rest
      if s.length ≤ (rest.getD j ⟨0, 0⟩).length then j + 1 else 0

/-- One iteration body of the `while segments.len() < max_connections` loop in
`create_segments`: shrink the largest segment to its first half and push the
second half at the end of the vector. -/
def splitStep (segs : List Seg) (i : Nat) : List Seg :=
  let seg := segs.getD i ⟨0, 0⟩
  let half := seg.length / 2
  segs.set i ⟨seg.offset, half⟩ ++ [⟨seg.offset + half, seg.length - half⟩]

/-- The splitting loop of `create_segments`, with explicit fuel.  The Rust
loop adds one segment per iteration and runs only while
`segments.len() < max_connections`, so fuel `max_connections` is never
exhausted before the loop condition fails. -/
def createSegmentsAux (fuel : Nat) (maxConnections : Nat) (segs : List Seg) : List Seg :=
  match fuel with
  | 0 => segs
  | fuel + 1 =>
    if segs.length < maxConnections then
      let i := maxLenIdx segs
      let seg := segs.getD i ⟨0, 0⟩
      if seg.length < MIN_SEGMENT_SIZE * 2 then segs
      else createSegmentsAux fuel maxConnections (splitStep segs i)
    else segs

/-- `create_segments(file_size: u64, max_connections: usize)` from
multipart_download_strategy.rs: start from one segment covering the whole
file (length `file_size as i64`) and repeatedly halve the largest segment. -/
def create_segments (file_size : Nat) (max_connections : Nat) : List Seg :=
  createSegmentsAux max_connections max_connections [⟨0, u64ToI64 file_size⟩]

/-- Number of pieces produced by fully halving a length `l` until every piece
is below `2 * MIN_SEGMENT_SIZE` (524288): the count that the splitting loop
reaches when `max_connections` does not bind.  This is the corrected closed
form for the planner's segment count. -/
def countPieces (l : Int) : Nat :=
  if l < 524288 then 1
  else countPieces (l / 2) + countPieces (l - l / 2)
termination_by l.toNat
decreasing_by
  · omega
  · omega

/-- Interval-membership indicator of one segment: 1 if `x` lies in
`[offset, offset + length)`, else 0. -/
def segInd (s : Seg) (x : Int) : Nat :=
  if s.offset ≤ x ∧ x < s.offset + s.length then 1 else 0

/-- How many segments of the list contain the byte position `x`. -/
def countCover (segs : List Seg) (x : Int) : Nat :=
  (segs.map (fun s => segInd s x)).sum

/-- Two segments occupy disjoint byte ranges. -/
def segDisjoint (s t : Seg) : Prop :=
  s.offset + s.length ≤ t.offset ∨ t.offset + t.length ≤ s.offset

/-- Ordering of segments by `offset` (used to model Rust's
`sort_by_key(|s| s.offset)`). -/
def segLE (s t : Seg) : Prop := s.offset ≤ t.offset

instance : DecidableRel segLE := fun s t => inferInstanceAs (Decidable (s.offset ≤ t.offset))

instance : IsTotal Seg segLE := ⟨fun s t => Int.le_total s.offset t.offset⟩

instance : IsTrans Seg segLE := ⟨fun _ _ _ h h' => Int.le_trans h h'⟩

/-- The segment list sorted by `offset` (Rust `sort_by_key` is a stable sort,
as is `List.insertionSort`). -/
def sortByOffset (segs : List Seg) : List Seg :=
  List.insertionSort segLE segs

/-- `contiguousFrom a fin l` checks that the segments of `l`, in list order,
tile the byte range `[a, fin)` exactly: each segment starts where the
previous one ended, the first starts at `a`, and the last ends at `fin`. -/
def contiguousFrom (a fin : Int) : List Seg → Bool
  | [] => a == fin
  | s :: t => (s.offset == a) && contiguousFrom (a + s.length) fin t

/-!
## The range fetcher: `download_segment` (segment_grabber.rs)

The fetcher is an async loop over HTTP attempts.  We model one call to
`download_segment` as a deterministic function of

* the segment on entry (`id` is irrelevant and omitted; `length`,
  `downloaded` are the `i64` fields),
* the scratch-file content already on disk,
* a *script*: the sequence of network interactions the transport would
  produce (each attempt either fails at `send()` or yields a response
  body, itself a sequence of chunks or a mid-stream error),
* the cancellation token, modelled by the index of the first
  `is_cancelled()` poll that observes cancellation (`none` = never).

Bytes are modelled as `Nat`.  The function returns `none` when the script
is too short to decide the call (never the case for ≥ 3 attempts).
-/

/-- One item pulled from `response.bytes_stream()`: a data chunk or a
mid-stream transport error. -/
inductive ChunkItem where
  | data (bytes : List Nat)
  | chunkErr
deriving DecidableEq, Repr

/-- One `builder.send()` outcome: a transport error or a response whose body
yields the given chunk items. -/
inductive Attempt where
  | sendErr
  | response (chunks : List ChunkItem)
deriving DecidableEq, Repr

/-- Error taxonomy of the crate (`DownloadError`); `network` and `disk`
carry their message text. -/
inductive DownloadError where
  | network (msg : String)
  | disk (msg : String)
  | invalidState
  | maxRetryExceeded
  | nonResumable
  | cancelled
  | segmentFailed (msg : String)
deriving DecidableEq, Repr

/-- `Display` of `DownloadError` (thiserror attributes in the types module). -/
def errToString : DownloadError → String
  | .network m => "network error: " ++ m
  | .disk m => "disk error: " ++ m
  | .invalidState => "invalid state"
  | .maxRetryExceeded => "max retry exceeded"
  | .nonResumable => "non-resumable"
  | .cancelled => "cancelled"
  | .segmentFailed m => "segment failed: " ++ m

/-- Mutable state of one `download_segment` call: the scratch-file content,
the segment's `downloaded` counter, the retry counter, the number of
`is_cancelled()` polls made so far, and the backoff sleeps performed (ms). -/
structure FetchSt where
  file : List Nat
  downloaded : Int
  retries : Nat
  polls : Nat
  delays : List Nat
deriving DecidableEq, Repr

/-- The cancellation token: the `p`-th `is_cancelled()` poll (0-based)
observes cancellation iff `cancelAt = some c` with `c ≤ p`. -/
def isCancelled (cancelAt : Option Nat) (p : Nat) : Bool :=
  match cancelAt with
  | none => false
  | some c => c ≤ p

/-- Result of one pass over a response body. -/
inductive StreamExit where
  | done
  | errRetry
  | cancelled
deriving DecidableEq, Repr

/-- `MAX_RETRIES` in download_segment. -/
def MAX_RETRIES : Nat := 3

/-- The `while let Some(chunk_result) = stream.next()` loop of
`download_segment`.  `len` is `segment.length`; `remaining` is the `u64`
computed before the loop; `bw` is `bytes_written`.  Each received item is
preceded by an `is_cancelled()` poll; data writes are capped to
`remaining - bytes_written` when `len > 0`, an empty capped write breaks the
loop, and the loop also breaks once `bytes_written ≥ remaining`. -/
def runChunks (cancelAt : Option Nat) (len : Int) (remaining : Nat) :
    FetchSt → Nat → List ChunkItem → FetchSt × Nat × StreamExit
  | st, bw, [] => (st, bw, .done)
  | st, bw, item :: rest =>
    if isCancelled cancelAt st.polls then (st, bw, .cancelled)
    else
      let st1 : FetchSt := { st with polls := st.polls + 1 }
      match item with
      | .chunkErr => (st1, bw, .errRetry)
      | .data c =>
        let toWrite := if 0 < len then c.take (min c.length (remaining - bw)) else c
        if toWrite.isEmpty then (st1, bw, .done)
        else
          let st2 : FetchSt :=
            { st1 with
              file := st1.file ++ toWrite
              downloaded := st1.downloaded + toWrite.length }
          let bw2 := bw + toWrite.length
          if 0 < len ∧ remaining ≤ bw2 then (st2, bw2, .done)
          else runChunks cancelAt len remaining st2 bw2 rest

instance : DecidableEq (Except DownloadError Int)
  | .ok a, .ok b =>
    if h : a = b then isTrue (by rw [h]) else isFalse (by simp [h])
  | .ok _, .error _ => isFalse (by simp)
  | .error _, .ok _ => isFalse (by simp)
  | .error a, .error b =>
    if h : a = b then isTrue (by rw [h]) else isFalse (by simp [h])

/-- Final outcome of a `download_segment` call: the returned value (`ok` with
the final `downloaded`, or an error), the segment state the local segment
variable holds at return, and the final fetch state. -/
structure GrabOutcome where
  result : Except DownloadError Int
  segState : SegmentState
  final : FetchSt
deriving DecidableEq, Repr

/-- The retry arm shared by the send-error and mid-stream-error paths:
increment `retries`; at the budget set the segment `Failed` and return
`MaxRetryExceeded`; otherwise sleep `100 * 2^(min retries 5)` ms.  Returns
`.inl` to terminate or `.inr` the state for the next attempt. -/
def retryStep (st : FetchSt) : GrabOutcome ⊕ FetchSt :=
  let r := st.retries + 1
  if MAX_RETRIES ≤ r then
    .inl ⟨.error .maxRetryExceeded, .failed, { st with retries := r }⟩
  else
    .inr { st with retries := r, delays := st.delays ++ [100 * 2 ^ (min r 5)] }

/-- One iteration body of the `loop` in `download_segment`, after the
cancellation poll: send the request (`sendErr` goes to the retry arm), open
the scratch file (truncating when `downloaded == 0`, appending otherwise),
compute `remaining` via the `as u64` cast, and stream the body with
`runChunks`; a mid-stream error goes to the retry arm, normal exit marks
`Finished`.  `.inl` ends the call, `.inr` continues the loop. -/
def attemptStep (cancelAt : Option Nat) (len : Int) (st : FetchSt) :
    Attempt → GrabOutcome ⊕ FetchSt
  | .sendErr => retryStep st
  | .response chunks =>
    let st1 : FetchSt := if 0 < st.downloaded then st else { st with file := [] }
    let remaining : Nat :=
      if 0 < len then ((len - st1.downloaded) % 2 ^ 64).toNat else 2 ^ 64 - 1
    match runChunks cancelAt len remaining st1 0 chunks with
    | (st2, _, .cancelled) => .inl ⟨.error .cancelled, .downloading, st2⟩
    | (st2, _, .errRetry) => retryStep st2
    | (st2, _, .done) => .inl ⟨.ok st2.downloaded, .finished, st2⟩

/-- The `loop` of `download_segment` over the attempt script.  `len` is the
segment's `length`.  Each iteration polls the token and then performs one
attempt.  Returns `none` when the script is exhausted while the loop still
wants another attempt. -/
def runSegAux (cancelAt : Option Nat) (len : Int) :
    FetchSt → List Attempt → Option GrabOutcome
  | st, script =>
    if isCancelled cancelAt st.polls then
      some ⟨.error .cancelled, .downloading, st⟩
    else
      match script with
      | [] => none
      | attempt :: rest =>
        match attemptStep cancelAt len { st with polls := st.polls + 1 } attempt with
        | .inl out => some out
        | .inr st2 => runSegAux cancelAt len st2 rest

/-- One call to `download_segment` on a segment with the given `length` and
`downloaded` fields and scratch-file content `scratch`. -/
def runSeg (cancelAt : Option Nat) (len downloaded : Int) (scratch : List Nat)
    (script : List Attempt) : Option GrabOutcome :=
  runSegAux cancelAt len
    { file := scratch, downloaded := downloaded, retries := 0, polls := 0, delays := [] } script

/-- Total number of data bytes in a list of chunk items. -/
def sumBytes (chunks : List ChunkItem) : Nat :=
  (chunks.map (fun c => match c with | .data b => b.length | .chunkErr => 0)).sum

/-!
## The strategy: `download` reconcile phase and `postprocess`
(multipart_download_strategy.rs)

`download()` spawns one task per `NotStarted` segment, `join_all`s every
handle, and then folds over the outcomes under one write lock.  We model
that final fold: the outcomes arrive as a list (task order), each being
either a join failure (panic text) or the task's own
`Result<Segment, DownloadError>`.
-/

/-- The crate's `Segment` record (types module): opaque id, `i64`
offset/length/downloaded, and a state. -/
structure Segment where
  id : String
  offset : Int
  length : Int
  downloaded : Int
  state : SegmentState
deriving DecidableEq, Repr

/-- Outcome of `handle.await` for one segment task: a join error or the
task's own result. -/
inductive TaskResult where
  | joined (r : Except DownloadError Segment)
  | joinErr (msg : String)

/-- Replace the value stored under `k` (model of `HashMap::insert` on a key
that is present; `download` only inserts ids it read from the map). -/
def mapInsert (m : List (String × Segment)) (k : String) (v : Segment) :
    List (String × Segment) :=
  if m.any (fun kv => kv.1 == k) then
    m.map (fun kv => if kv.1 == k then (k, v) else kv)
  else m ++ [(k, v)]

/-- `segments_guard.get_mut(&segment_id)` followed by
`s.state = SegmentState::Failed`. -/
def markFailed (m : List (String × Segment)) (k : String) :
    List (String × Segment) :=
  m.map (fun kv => if kv.1 == k then (kv.1, { kv.2 with state := .failed }) else kv)

/-- Accumulator of the reconcile loop in `download`. -/
structure DownloadAgg where
  segments : List (String × Segment)
  firstError : Option DownloadError

/-- One iteration of the `for (segment_id, result) in results` loop. -/
def reconcileStep (agg : DownloadAgg) (r : String × TaskResult) : DownloadAgg :=
  match r.2 with
  | .joined (.ok seg) => { agg with segments := mapInsert agg.segments r.1 seg }
  | .joined (.error e) =>
    { segments := markFailed agg.segments r.1
      firstError := match agg.firstError with | some e0 => some e0 | none => some e }
  | .joinErr m =>
    { segments := markFailed agg.segments r.1
      firstError :=
        match agg.firstError with
        | some e0 => some e0
        | none => some (.segmentFailed m) }

/-- The tail of `MultipartDownloadStrategy::download` after `join_all`:
reconcile every outcome, then return the first recorded error (pushing its
text through the progress channel when a sender is attached) or `Ok`. -/
def downloadReconcile (results : List (String × TaskResult))
    (m : List (String × Segment)) (txAttached : Bool) :
    Except DownloadError Unit × List (String × Segment) × List String :=
  let agg := results.foldl reconcileStep ⟨m, none⟩
  match agg.firstError with
  | some e => (.error e, agg.segments, if txAttached then [errToString e] else [])
  | none => (.ok (), agg.segments, [])

/-- The error of one task outcome, if any (join failures become
`SegmentFailed`, as in the code). -/
def taskError : TaskResult → Option DownloadError
  | .joined (.ok _) => none
  | .joined (.error e) => some e
  | .joinErr m => some (.segmentFailed m)

/-- The first error among the outcomes, in task order — what the code's
`first_error` ends up holding. -/
def firstErrorOf (results : List (String × TaskResult)) : Option DownloadError :=
  results.findSome? (fun r => taskError r.2)

/-- Modelled from the spec: "the first non-cancelled error from any range is
the job result" — the first error in task order that is not `Cancelled`.
This is the claim's candidate job result, to be compared with the code's
`first_error`. -/
def firstNonCancelledErrorOf (results : List (String × TaskResult)) :
    Option DownloadError :=
  results.findSome? (fun r =>
    match taskError r.2 with
    | some .cancelled => none
    | o => o)

/-- Ordering of full segments by `offset` (Rust
`sorted.sort_by_key(|s| s.offset)` in `postprocess`). -/
def segmentLE (s t : Segment) : Prop := s.offset ≤ t.offset

instance : DecidableRel segmentLE :=
  fun s t => inferInstanceAs (Decidable (s.offset ≤ t.offset))

instance : IsTotal Segment segmentLE := ⟨fun s t => Int.le_total s.offset t.offset⟩

instance : IsTrans Segment segmentLE := ⟨fun _ _ _ h h' => Int.le_trans h h'⟩

/-- The segment list sorted by `offset` (stable, like Rust's sort). -/
def sortSegments (segs : List Segment) : List Segment :=
  List.insertionSort segmentLE segs

/-- `{:?}` rendering of a segment state. -/
def stateName : SegmentState → String
  | .notStarted => "NotStarted"
  | .finished => "Finished"
  | .downloading => "Downloading"
  | .failed => "Failed"

/-- The `postprocess` verification error text. -/
def notFinishedMsg (s : Segment) : String :=
  "segment " ++ s.id ++ " is in state " ++ stateName s.state ++ ", expected Finished"

/-- The scratch state `postprocess` manipulates: the scratch directory's
files (name → content), whether the directory exists, and the output file's
content if it has been created. -/
structure ScratchFS where
  files : List (String × List Nat)
  dirExists : Bool
  output : Option (List Nat)
deriving DecidableEq, Repr

/-- The assembly loop of `postprocess`: append each named scratch file to the
accumulated output; stop with `false` at the first missing file. -/
def assembleLoop (files : List (String × List Nat)) :
    List String → List Nat → List Nat × Bool
  | [], acc => (acc, true)
  | id :: rest, acc =>
    match files.lookup id with
    | some c => assembleLoop files rest (acc ++ c)
    | none => (acc, false)

/-- `MultipartDownloadStrategy::postprocess`: verify every segment is
`Finished` (returning `SegmentFailed` for the first one that is not, before
touching the filesystem), then create the output file, concatenate the
scratch files in offset order into it, delete them, and remove the scratch
directory (silently left in place when other files remain). -/
def postprocess (segs : List Segment) (fs : ScratchFS) :
    Except DownloadError Unit × ScratchFS :=
  match segs.find? (fun s => decide (¬ s.state = SegmentState.finished)) with
  | some s => (.error (.segmentFailed (notFinishedMsg s)), fs)
  | none =>
    let ids := (sortSegments segs).map (fun s => s.id)
    match assembleLoop fs.files ids [] with
    | (acc, false) =>
      (.error (.disk "No such file or directory"), { fs with output := some acc })
    | (full, true) =>
      let kept := fs.files.filter (fun kv => !(ids.contains kv.1))
      (.ok (),
        { files := kept
          dirExists := if kept.isEmpty then false else fs.dirExists
          output := some full })

/-!
## The progress aggregator: `ProgressNotifier` (progress/notifier.rs)

`run` consumes `Result<ProgressEvent, String>` messages until the channel
closes.  We model the incoming message sequence as a list (an `ev` carries
the `Instant::now()` observed while handling it, as a rational number of
seconds), observers as indices `0..n` in registration order, and the
callbacks as an emitted trace.  `f64` arithmetic is modelled over `ℚ`.
-/

/-- `ProgressEvent` from the types module. -/
structure ProgressEvent where
  segment_id : String
  bytes_delta : Nat
  total_bytes : Option Nat
deriving DecidableEq, Repr

/-- One message on the progress channel, or rather its reception: `ev` also
records the time at which `handle_event` runs. -/
inductive Msg where
  | ev (now : ℚ) (e : ProgressEvent)
  | err (text : String)
deriving DecidableEq, Repr

/-- Whether a message is the error variant. -/
def Msg.isErr : Msg → Bool
  | .ev _ _ => false
  | .err _ => true

/-- `EMA_ALPHA` from notifier.rs. -/
def EMA_ALPHA : ℚ := 3 / 10

/-- Per-segment tracking record (`SegmentProgress`). -/
structure SegmentProgress where
  segment_id : String
  bytes_downloaded : Nat
  total_bytes : Nat
  speed : ℚ
  last_update : ℚ
deriving DecidableEq, Repr

/-- Aggregation state: the tracked segments in first-sighting order (the
`HashMap` plus `segment_order`, merged into one association list). -/
structure NotifierState where
  segments : List SegmentProgress
deriving DecidableEq, Repr

/-- The in-place mutation of one tracked segment in
`ProgressNotifier::handle_event`: accumulate the delta, adopt a
previously-unknown total, and EMA-update the speed when time has advanced. -/
def updateSP (now : ℚ) (e : ProgressEvent) (sp : SegmentProgress) : SegmentProgress :=
  let bytes := sp.bytes_downloaded + e.bytes_delta
  let total :=
    if sp.total_bytes = 0 then
      match e.total_bytes with
      | some tb => tb
      | none => sp.total_bytes
    else sp.total_bytes
  let elapsed := now - sp.last_update
  if 0 < elapsed then
    { sp with
      bytes_downloaded := bytes
      total_bytes := total
      speed := EMA_ALPHA * ((e.bytes_delta : ℚ) / elapsed) + (1 - EMA_ALPHA) * sp.speed
      last_update := now }
  else { sp with bytes_downloaded := bytes, total_bytes := total }

/-- `ProgressNotifier::handle_event`: lazily track a new id, then update the
tracked record for the event's segment. -/
def handleEvent (st : NotifierState) (now : ℚ) (e : ProgressEvent) : NotifierState :=
  let segs0 :=
    if st.segments.any (fun sp => sp.segment_id == e.segment_id) then st.segments
    else st.segments ++ [⟨e.segment_id, 0, e.total_bytes.getD 0, 0, now⟩]
  ⟨segs0.map (fun sp =>
    if sp.segment_id == e.segment_id then updateSP now e sp else sp)⟩

/-- `SegmentSnapshot` (progress/snapshot.rs). -/
structure SegmentSnapshot where
  segment_id : String
  bytes_downloaded : Nat
  total_bytes : Nat
  speed : ℚ
  eta_secs : ℚ
deriving DecidableEq, Repr

/-- `ProgressSnapshot` (progress/snapshot.rs). -/
structure ProgressSnapshot where
  segments : List SegmentSnapshot
  total_bytes_downloaded : Nat
  total_bytes : Nat
  speed : ℚ
  eta_secs : ℚ
  done : Bool
deriving DecidableEq, Repr

/-- `ProgressNotifier::build_snapshot`. -/
def buildSnapshot (st : NotifierState) : ProgressSnapshot :=
  let total_bytes := (st.segments.map (fun s => s.total_bytes)).sum
  let total_downloaded := (st.segments.map (fun s => s.bytes_downloaded)).sum
  let combined_speed := (st.segments.map (fun s => s.speed)).sum
  let remaining : Nat := total_bytes - total_downloaded
  { segments :=
      st.segments.map (fun s =>
        let rem : Nat := s.total_bytes - s.bytes_downloaded
        ({ segment_id := s.segment_id
           bytes_downloaded := s.bytes_downloaded
           total_bytes := s.total_bytes
           speed := s.speed
           eta_secs := if (0 : ℚ) < s.speed then (rem : ℚ) / s.speed else 0 } : SegmentSnapshot))
    total_bytes_downloaded := total_downloaded
    total_bytes := total_bytes
    speed := combined_speed
    eta_secs := if (0 : ℚ) < combined_speed then (remaining : ℚ) / combined_speed else 0
    done := false }

/-- Total bytes downloaded across tracked segments. -/
def totalDownloaded (st : NotifierState) : Nat :=
  (st.segments.map (fun s => s.bytes_downloaded)).sum

/-- `ProgressNotifier::finish`: the final snapshot with `done = true`,
average speed over the whole run, and zero ETA.  `elapsed` is
`start_time.elapsed()` in seconds. -/
def finishSnap (st : NotifierState) (elapsed : ℚ) : ProgressSnapshot :=
  { buildSnapshot st with
    done := true
    speed := if 0 < elapsed then (totalDownloaded st : ℚ) / elapsed else 0
    eta_secs := 0 }

/-- One observer callback, tagged with the observer's registration index. -/
inductive ObserverCall where
  | onProgress (obs : Nat) (snap : ProgressSnapshot)
  | onError (obs : Nat) (text : String)
  | onComplete (obs : Nat) (snap : ProgressSnapshot)
deriving DecidableEq, Repr

/-- Whether a call is `on_complete` for observer `i`. -/
def isCompleteFor (i : Nat) : ObserverCall → Bool
  | .onComplete j _ => j == i
  | _ => false

/-- Whether a call is an `on_progress`. -/
def ObserverCall.isProgress : ObserverCall → Bool
  | .onProgress _ _ => true
  | _ => false

/-- `ProgressNotifier::run` with `n` observers: per `Ok` event update state
and call `on_progress` on every observer in registration order; on `Err`
call `on_error` on every observer and stop; on channel close call
`on_complete` on every observer with the `finish` snapshot. -/
def runNotifier (n : Nat) (elapsed : ℚ) : NotifierState → List Msg → List ObserverCall
  | st, [] => (List.range n).map (fun i => .onComplete i (finishSnap st elapsed))
  | st, .ev now e :: rest =>
    let st' := handleEvent st now e
    ((List.range n).map (fun i => .onProgress i (buildSnapshot st'))) ++
      runNotifier n elapsed st' rest
  | _, .err t :: _ => (List.range n).map (fun i => .onError i t)

/-- The `on_progress` calls produced while consuming an error-free prefix of
messages (the trace of `run` before its terminal callbacks). -/
def okTrace (n : Nat) : NotifierState → List Msg → List ObserverCall
  | _, [] => []
  | st, .ev now e :: rest =>
    ((List.range n).map (fun i => ObserverCall.onProgress i (buildSnapshot (handleEvent st now e)))) ++
      okTrace n (handleEvent st now e) rest
  | _, .err _ :: _ => []

/-- The aggregation state after consuming the events of a message list. -/
def processMsgs : NotifierState → List Msg → NotifierState
  | st, [] => st
  | st, .ev now e :: rest => processMsgs (handleEvent st now e) rest
  | st, .err _ :: rest => processMsgs st rest

/-- Sum of the `bytes_delta` fields of a message list. -/
def sumDeltas (msgs : List Msg) : Nat :=
  (msgs.map (fun m => match m with | .ev _ e => e.bytes_delta | .err _ => 0)).sum

/-- A notifier that has seen nothing yet. -/
def initNotifier : NotifierState := ⟨[]⟩

/-!
## Filename extraction: `extract_filename` (segment_grabber.rs)

The Rust code works on `&str` with byte indices; we model strings as char
lists and indices as char indices, which coincides with the byte-level
behaviour whenever lowercasing is length-preserving — in particular on all
ASCII header text, the domain of `Content-Disposition` values.  The decoded
RFC 5987 value is a byte sequence: percent-decoding collects raw bytes and
`flush_pending` validates them as UTF-8, emitting one replacement character
per invalid run (just as the Rust helper does).
-/

/-- Value of one hex digit. -/
def hexVal (c : Char) : Option Nat :=
  if '0' ≤ c ∧ c ≤ '9' then some (c.toNat - '0'.toNat)
  else if 'a' ≤ c ∧ c ≤ 'f' then some (c.toNat - 'a'.toNat + 10)
  else if 'A' ≤ c ∧ c ≤ 'F' then some (c.toNat - 'A'.toNat + 10)
  else none

/-- `u8::from_str_radix(&format!("{h1}{h2}"), 16)`: two hex digits, or a
leading `+` sign followed by one hex digit. -/
def parseByteHex (h1 h2 : Char) : Option Nat :=
  match hexVal h1, hexVal h2 with
  | some a, some b => some (a * 16 + b)
  | _, _ => if h1 = '+' then hexVal h2 else none

/-- Is `b` a UTF-8 continuation byte (`0x80..=0xBF`)? -/
def isCont (b : Nat) : Bool := 128 ≤ b && b ≤ 191

/-- Strict UTF-8 decoding of a byte sequence, as validated by Rust's
`std::str::from_utf8`: rejects overlong encodings, surrogates and
code points above `0x10FFFF`. -/
def utf8Decode : List Nat → Option (List Char)
  | [] => some []
  | b :: rest =>
    if b < 128 then (utf8Decode rest).map (fun cs => Char.ofNat b :: cs)
    else if 194 ≤ b && b ≤ 223 then
      match rest with
      | c1 :: rest2 =>
        if isCont c1 then
          (utf8Decode rest2).map (fun cs => Char.ofNat ((b - 192) * 64 + (c1 - 128)) :: cs)
        else none
      | [] => none
    else if 224 ≤ b && b ≤ 239 then
      match rest with
      | c1 :: c2 :: rest2 =>
        let okC1 :=
          if b = 224 then 160 ≤ c1 && c1 ≤ 191
          else if b = 237 then 128 ≤ c1 && c1 ≤ 159
          else isCont c1
        if okC1 && isCont c2 then
          (utf8Decode rest2).map (fun cs =>
            Char.ofNat ((b - 224) * 4096 + (c1 - 128) * 64 + (c2 - 128)) :: cs)
        else none
      | _ => none
    else if 240 ≤ b && b ≤ 244 then
      match rest with
      | c1 :: c2 :: c3 :: rest2 =>
        let okC1 :=
          if b = 240 then 144 ≤ c1 && c1 ≤ 191
          else if b = 244 then 128 ≤ c1 && c1 ≤ 143
          else isCont c1
        if okC1 && isCont c2 && isCont c3 then
          (utf8Decode rest2).map (fun cs =>
            Char.ofNat ((b - 240) * 262144 + (c1 - 128) * 4096 + (c2 - 128) * 64 + (c3 - 128)) :: cs)
        else none
      | _ => none
    else none

/-- `flush_pending`: append the pending bytes as UTF-8, or a single
replacement character when they are not valid UTF-8. -/
def flush_pending (pending : List Nat) (out : List Char) : List Char :=
  if pending.isEmpty then out
  else
    match utf8Decode pending with
    | some s => out ++ s
    | none => out ++ ['�']

/-- The loop of `percent_decode`: `%HH` pushes a raw byte onto `pending`;
any other character (or a malformed escape) flushes `pending` first. -/
def percentDecodeAux : List Char → List Nat → List Char → List Char
  | [], pending, out => flush_pending pending out
  | '%' :: rest, pending, out =>
    (match rest with
     | h1 :: h2 :: rest2 =>
       match parseByteHex h1 h2 with
       | some byte => percentDecodeAux rest2 (pending ++ [byte]) out
       | none => percentDecodeAux rest2 [] (flush_pending pending out ++ ['%', h1, h2])
     | [h1] => flush_pending pending out ++ ['%', h1]
     | [] => flush_pending pending out ++ ['%'])
  | c :: rest, pending, out => percentDecodeAux rest [] (flush_pending pending out ++ [c])

/-- `percent_decode` from segment_grabber.rs. -/
def percent_decode (s : List Char) : List Char :=
  percentDecodeAux s [] []

/-- Char-wise lowercasing (model of `str::to_lowercase` on text where
lowercasing is one-to-one, e.g. ASCII). -/
def toLowerStr (l : List Char) : List Char := l.map Char.toLower

/-- First index at which `needle` occurs in `hay` (model of `str::find`
with a string pattern, with char indices standing for byte indices). -/
def findSubstr (needle : List Char) : List Char → Option Nat
  | [] => if needle.isEmpty then some 0 else none
  | c :: rest =>
    if needle.isPrefixOf (c :: rest) then some 0
    else (findSubstr needle rest).map (fun i => i + 1)

/-- `str::trim` (ASCII-faithful whitespace model). -/
def trimChars (l : List Char) : List Char :=
  ((l.dropWhile Char.isWhitespace).reverse.dropWhile Char.isWhitespace).reverse

/-- `str::trim_matches(c)`: strip all leading and trailing occurrences. -/
def trimMatches (c : Char) (l : List Char) : List Char :=
  ((l.dropWhile (fun x => x = c)).reverse.dropWhile (fun x => x = c)).reverse

/-- `extract_filename_star`: locate `filename*=` case-insensitively, cut the
value at `;`, trim it, and percent-decode it when the charset is `UTF-8`
(either spelling); any other charset falls through to the plain form. -/
def extract_filename_star (d : List Char) : Option (List Char) :=
  match findSubstr "filename*=".toList (toLowerStr d) with
  | none => none
  | some idx =>
    let rest := trimChars ((d.drop (idx + 10)).takeWhile (fun c => c ≠ ';'))
    if "UTF-8''".toList.isPrefixOf rest then some (percent_decode (rest.drop 7))
    else if "utf-8''".toList.isPrefixOf rest then some (percent_decode (rest.drop 7))
    else none

/-- `extract_filename_plain`: locate `filename=` case-insensitively, cut the
value at `;`, trim whitespace and surrounding quotes. -/
def extract_filename_plain (d : List Char) : Option (List Char) :=
  match findSubstr "filename=".toList (toLowerStr d) with
  | none => none
  | some idx =>
    let raw := trimMatches '"' (trimChars ((d.drop (idx + 9)).takeWhile (fun c => c ≠ ';')))
    if raw.isEmpty then none else some raw

/-- `extract_filename`: the RFC 5987 `filename*=` form takes priority over
the plain `filename=` form. -/
def extract_filename (disposition : String) : Option String :=
  match extract_filename_star disposition.toList with
  | some name => some name.asString
  | none => (extract_filename_plain disposition.toList).map List.asString

/-!
## Helper lemmas
-/

lemma perm_set_cons_eraseIdx {α : Type} (a : α) :
    ∀ (l : List α) (i : Nat), i < l.length → List.Perm (l.set i a) (a :: l.eraseIdx i)
  | b :: l, 0, _ => by simp
  | b :: l, i + 1, h => by
    have ih := perm_set_cons_eraseIdx a l i (by simpa using h)
    simpa using (ih.cons b).trans (List.Perm.swap a b _)

lemma perm_getD_cons_eraseIdx {α : Type} (d : α) :
    ∀ (l : List α) (i : Nat), i < l.length → List.Perm l (l.getD i d :: l.eraseIdx i)
  | b :: l, 0, _ => by simp
  | b :: l, i + 1, h => by
    have ih := perm_getD_cons_eraseIdx d l i (by simpa using h)
    simpa using (ih.cons b).trans (List.Perm.swap _ b _)

lemma maxLenIdx_lt : ∀ (l : List Seg), l ≠ [] → maxLenIdx l < l.length
  | s :: rest, _ => by
    unfold maxLenIdx
    by_cases h : rest = []
    · simp [h]
    · have := maxLenIdx_lt rest h
      simp only [h, if_false]
      split
      · simpa using this
      · simp

lemma maxLenIdx_max : ∀ (l : List Seg), ∀ s ∈ l, s.length ≤ (l.getD (maxLenIdx l) ⟨0, 0⟩).length
  | t :: rest, s, hmem => by
    unfold maxLenIdx
    by_cases h : rest = []
    · subst h
      simp at hmem
      simp [hmem]
    · have hlt := maxLenIdx_lt rest h
      simp only [h, if_false]
      rcases List.mem_cons.mp hmem with rfl | hrest
      · split
        · next hle => simpa using hle
        · simp
      · have ih := maxLenIdx_max rest s hrest
        split
        · simpa using ih
        · next hgt =>
          push_neg at hgt
          simpa using le_trans ih (le_of_lt hgt)

/-!
## C4 — retry counter, backoff delays, retry budget
-/

/-- C4: evaluating `download_segment` on three consecutive transport errors.
The retry counter is incremented on each error and the budget of
`MAX_RETRIES = 3` ends the call with the segment `Failed` and
`MaxRetryExceeded` — but the backoff sleeps performed are 200 ms then
400 ms: the code computes `100 * (1 << retries)` after incrementing
`retries`, so the claimed (and comment-documented) first delay of 100 ms
never occurs. -/
theorem c4_backoff_delays_eval :
    runSeg none 1000 0 [] [.sendErr, .sendErr, .sendErr] =
      some ⟨.error .maxRetryExceeded, .failed,
        { file := [], downloaded := 0, retries := 3, polls := 3, delays := [200, 400] }⟩ := by
  rfl

/-!
## C9 — Content-Disposition filename extraction
-/

/-- C9: `extract_filename` prefers the RFC 5987 `filename*=` form whenever it
parses (in particular when both forms are present), percent-decodes the
`UTF-8''` value (`My%20Video.mp4` ↦ `My Video.mp4`), and replaces invalid
UTF-8 byte runs in the decoded value with the replacement character. -/
theorem c9_extract_filename :
    (∀ d : String, (extract_filename_star d.toList).isSome →
        extract_filename d = (extract_filename_star d.toList).map List.asString) ∧
      extract_filename "attachment; filename=\"plain.mp4\"; filename*=UTF-8''My%20Video.mp4" =
        some "My Video.mp4" ∧
      extract_filename "attachment; filename*=UTF-8''bad%FFname" = some "bad�name" := by
  refine ⟨fun d h => ?_, by rfl, by rfl⟩
  unfold extract_filename
  cases hstar : extract_filename_star d.toList with
  | none => rw [hstar] at h; simp at h
  | some name => simp [hstar]

/-- Witness for C9's general conjunct at a concrete header. -/
theorem c9_extract_filename_witness :
    (extract_filename_star ("attachment; filename*=UTF-8''a.mp4").toList).isSome ∧
      extract_filename "attachment; filename*=UTF-8''a.mp4" =
        (extract_filename_star ("attachment; filename*=UTF-8''a.mp4").toList).map List.asString :=
  ⟨by rfl, c9_extract_filename.1 "attachment; filename*=UTF-8''a.mp4" (by rfl)⟩

/-!
## C10 — postprocess fails fast, filesystem untouched
-/

/-- C10: when some segment is not `Finished`, `postprocess` returns the
`SegmentFailed` error for the first such segment and performs no filesystem
operation: the scratch state (files, directory, output file) is returned
exactly as it was. -/
theorem c10_postprocess_error_no_fs (segs : List Segment) (fs : ScratchFS) (s : Segment)
    (h : segs.find? (fun s => decide (¬ s.state = SegmentState.finished)) = some s) :
    postprocess segs fs = (.error (.segmentFailed (notFinishedMsg s)), fs) := by
  unfold postprocess
  rw [h]

/-- Witness for C10 at a concrete map with one `Downloading` segment. -/
theorem c10_postprocess_error_no_fs_witness :
    ([(⟨"a", 0, 5, 5, SegmentState.finished⟩ : Segment),
        ⟨"b", 5, 5, 0, SegmentState.downloading⟩].find?
          (fun s => decide (¬ s.state = SegmentState.finished)) =
        some ⟨"b", 5, 5, 0, SegmentState.downloading⟩) ∧
      postprocess
          [⟨"a", 0, 5, 5, SegmentState.finished⟩, ⟨"b", 5, 5, 0, SegmentState.downloading⟩]
          ⟨[("a", [1, 2]), ("b", [3])], true, none⟩ =
        (.error (.segmentFailed (notFinishedMsg ⟨"b", 5, 5, 0, SegmentState.downloading⟩)),
          ⟨[("a", [1, 2]), ("b", [3])], true, none⟩) :=
  ⟨by rfl,
    c10_postprocess_error_no_fs _ _ _ (by rfl)⟩

/-!
## C3 — job result aggregation in `download`
-/

lemma foldl_reconcile_firstError :
    ∀ (results : List (String × TaskResult)) (m : List (String × Segment))
      (fe : Option DownloadError),
      (results.foldl reconcileStep ⟨m, fe⟩).firstError =
        match fe with
        | some e => some e
        | none => firstErrorOf results
  | [], m, fe => by cases fe <;> simp [firstErrorOf]
  | r :: rest, m, fe => by
    have ih := foldl_reconcile_firstError rest
    rcases r with ⟨id, tr⟩
    cases fe with
    | some e =>
      rcases tr with r' | msg
      · rcases r' with e' | seg
        · simpa [reconcileStep] using ih _ (some e)
        · simpa [reconcileStep] using ih _ (some e)
      · simpa [reconcileStep] using ih _ (some e)
    | none =>
      simp only [List.foldl_cons, firstErrorOf, List.findSome?_cons]
      rcases tr with r' | msg
      · rcases r' with e' | seg
        · simpa [reconcileStep, taskError] using ih _ (some e')
        · simpa [reconcileStep, taskError, firstErrorOf] using ih _ none
      · simpa [reconcileStep, taskError] using ih _ (some (.segmentFailed msg))

/-- C3 (amended): when at least one segment task fails, `download` returns
the FIRST error among the task outcomes in task order — whether or not it is
`Cancelled` — and, with a progress sender attached, pushes exactly that
error\'s display text into the progress channel. -/
theorem c3_first_error_any (results : List (String × TaskResult))
    (m : List (String × Segment)) (e : DownloadError)
    (h : firstErrorOf results = some e) :
    (downloadReconcile results m true).1 = .error e ∧
      (downloadReconcile results m true).2.2 = [errToString e] := by
  have hfe := foldl_reconcile_firstError results m none
  simp [downloadReconcile, hfe, h]

/-- Witness for C3\'s amended claim on a concrete outcome list. -/
theorem c3_first_error_any_witness :
    (firstErrorOf
        [("a", .joined (.error (.network "timeout"))),
          ("b", .joined (.ok ⟨"b", 5, 5, 5, .finished⟩))] =
        some (.network "timeout")) ∧
      (downloadReconcile
            [("a", .joined (.error (.network "timeout"))),
              ("b", .joined (.ok ⟨"b", 5, 5, 5, .finished⟩))]
            [] true).1 = .error (.network "timeout") :=
  ⟨by rfl, (c3_first_error_any _ _ _ (by rfl)).1⟩

/-- C3 counterexample: with outcomes `[Cancelled, MaxRetryExceeded]` the
code\'s job result is `Cancelled`, not the first NON-cancelled error
(`MaxRetryExceeded`) the claim prescribes. -/
theorem c3_counterexample :
    (downloadReconcile
          [("a", .joined (.error .cancelled)), ("b", .joined (.error .maxRetryExceeded))]
          [("a", ⟨"a", 0, 5, 0, .notStarted⟩), ("b", ⟨"b", 5, 5, 0, .notStarted⟩)] true).1 =
        .error .cancelled ∧
      firstNonCancelledErrorOf
          [("a", .joined (.error .cancelled)), ("b", .joined (.error .maxRetryExceeded))] =
        some .maxRetryExceeded ∧
      DownloadError.cancelled ≠ DownloadError.maxRetryExceeded :=
  ⟨by rfl, by rfl, by decide⟩

/-!
## C8 — postprocess assembly
-/

lemma assembleLoop_all_found (files : List (String × List Nat)) :
    ∀ (ids : List String) (acc : List Nat),
      (∀ id ∈ ids, (files.lookup id).isSome) →
      assembleLoop files ids acc =
        (acc ++ (ids.map (fun id => (files.lookup id).getD [])).flatten, true)
  | [], acc, _ => by simp [assembleLoop]
  | id :: ids, acc, h => by
    have hs : (files.lookup id).isSome := h id (by simp)
    rcases Option.isSome_iff_exists.mp hs with ⟨c, hc⟩
    have ih := assembleLoop_all_found files ids (acc ++ c) (fun i hi => h i (by simp [hi]))
    simp [assembleLoop, hc, ih]

/-- C8: `postprocess` returns an error whenever some segment is not
`Finished`; when every segment is `Finished` (and the scratch directory
holds exactly the segments' files), it writes to the output exactly the
concatenation of the scratch files in ascending-offset order of their
segments, deletes every scratch file and removes the scratch directory.
`sortSegments` is sorted by offset and a permutation of the map's values. -/
theorem c8_postprocess_assembles (segs : List Segment) (fs : ScratchFS) :
    ((∃ s ∈ segs, s.state ≠ SegmentState.finished) →
        ∃ m, (postprocess segs fs).1 = .error m) ∧
      ((∀ s ∈ segs, s.state = SegmentState.finished) →
        (∀ s ∈ segs, (fs.files.lookup s.id).isSome) →
        (∀ kv ∈ fs.files, ∃ s ∈ segs, s.id = kv.1) →
        postprocess segs fs =
          (.ok (),
            ⟨[], false,
              some (((sortSegments segs).map (fun s => (fs.files.lookup s.id).getD [])).flatten)⟩) ∧
          List.Sorted segmentLE (sortSegments segs) ∧
          List.Perm (sortSegments segs) segs) := by
  constructor
  · rintro ⟨s, hs, hne⟩
    have : (segs.find? (fun s => decide (¬ s.state = SegmentState.finished))).isSome := by
      rw [List.find?_isSome]
      exact ⟨s, hs, by simpa using hne⟩
    rcases Option.isSome_iff_exists.mp this with ⟨s', hs'⟩
    refine ⟨.segmentFailed (notFinishedMsg s'), ?_⟩
    unfold postprocess
    rw [hs']
  · intro hfin hlook hkeys
    have hperm : List.Perm (sortSegments segs) segs := List.perm_insertionSort segmentLE segs
    have hmem : ∀ s : Segment, s ∈ sortSegments segs ↔ s ∈ segs := fun s => hperm.mem_iff
    have hnone : segs.find? (fun s => decide (¬ s.state = SegmentState.finished)) = none := by
      rw [List.find?_eq_none]
      intro s hs
      simpa using hfin s hs
    have hloop := assembleLoop_all_found fs.files ((sortSegments segs).map (fun s => s.id)) []
      (by
        intro id hid
        rcases List.mem_map.mp hid with ⟨s, hsmem, rfl⟩
        exact hlook s ((hmem s).mp hsmem))
    have hkept : fs.files.filter
        (fun kv => !(((sortSegments segs).map (fun s => s.id)).contains kv.1)) = [] := by
      rw [List.filter_eq_nil_iff]
      intro kv hkv
      rcases hkeys kv hkv with ⟨s, hsmem, hid⟩
      have : kv.1 ∈ (sortSegments segs).map (fun s => s.id) :=
        List.mem_map.mpr ⟨s, (hmem s).mpr hsmem, hid⟩
      simp only [Bool.not_eq_true]
      simp
      exact ⟨s, (hmem s).mpr hsmem, hid⟩
    refine ⟨?_, List.sorted_insertionSort segmentLE segs, hperm⟩
    unfold postprocess
    rw [hnone]
    simp only [hloop, hkept]
    simp [List.map_map]
    rfl

/-- Witness for C8 on a two-segment job whose scratch files hold
`[1,2,3]` (offset 0) and `[4,5]` (offset 3). -/
theorem c8_postprocess_assembles_witness :
    postprocess
        [⟨"b", 3, 2, 2, SegmentState.finished⟩, ⟨"a", 0, 3, 3, SegmentState.finished⟩]
        ⟨[("a", [1, 2, 3]), ("b", [4, 5])], true, none⟩ =
      (.ok (),
        ⟨[], false,
          some (((sortSegments
                [⟨"b", 3, 2, 2, SegmentState.finished⟩, ⟨"a", 0, 3, 3, SegmentState.finished⟩]).map
              (fun s =>
                ((⟨[("a", [1, 2, 3]), ("b", [4, 5])], true, none⟩ : ScratchFS).files.lookup
                    s.id).getD [])).flatten)⟩) ∧
      List.Sorted segmentLE
        (sortSegments
          [⟨"b", 3, 2, 2, SegmentState.finished⟩, ⟨"a", 0, 3, 3, SegmentState.finished⟩]) ∧
      List.Perm
        (sortSegments
          [⟨"b", 3, 2, 2, SegmentState.finished⟩, ⟨"a", 0, 3, 3, SegmentState.finished⟩])
        [⟨"b", 3, 2, 2, SegmentState.finished⟩, ⟨"a", 0, 3, 3, SegmentState.finished⟩] :=
  (c8_postprocess_assembles _ _).2 (by decide) (by decide) (by decide)

/-!
## C2 / C6 — the range planner
-/

/-- C2 counterexample: at `file_size = 2^63` (a legal `u64` probe size) the
`file_size as i64` cast wraps to `-2^63`, the loop never splits, and the
single returned segment has negative length: the segments do not cover
`[0, size)` — in particular the lengths do not sum to the file size. -/
theorem c2_counterexample_u64_wrap :
    ¬ (List.Pairwise segDisjoint (create_segments (2 ^ 63) 1) ∧
        contiguousFrom 0 (2 ^ 63 : Int) (sortByOffset (create_segments (2 ^ 63) 1)) = true ∧
        ((create_segments (2 ^ 63) 1).map (fun s => s.length)).sum = ((2 ^ 63 : Nat) : Int)) := by
  intro h
  exact absurd h.2.2 (by decide)

/-- C6 counterexample: for `file_size = 1048575 = 4·2^18 − 1` and
`max_connections = 8` the planner returns 3 segments, while the claimed
formula `min(N, 2^⌊log2(size/min)⌋)` gives `min(8, 2^1) = 2` (with either
real or integer division, `⌊log2(1048575/262144)⌋ = 1`). -/
theorem c6_counterexample_count :
    (create_segments 1048575 8).length = 3 ∧ (3 : Nat) ≠ 2 := by
  exact ⟨by rfl, by decide⟩

lemma min2_eq : MIN_SEGMENT_SIZE * 2 = 524288 := by norm_num [MIN_SEGMENT_SIZE]

lemma countPieces_pos (l : Int) : 1 ≤ countPieces l := by
  induction l using countPieces.induct with
  | case1 l h => rw [countPieces]; simp [h]
  | case2 l h ih1 ih2 => rw [countPieces]; simp [h]; omega

lemma countPieces_split {l : Int} (h : 524288 ≤ l) :
    countPieces l = countPieces (l / 2) + countPieces (l - l / 2) := by
  rw [countPieces]
  simp [show ¬ l < 524288 by omega]

lemma countPieces_small {l : Int} (h : l < 524288) : countPieces l = 1 := by
  rw [countPieces]; simp [h]

lemma length_le_sum_countPieces (segs : List Seg) :
    segs.length ≤ (segs.map (fun s => countPieces s.length)).sum := by
  induction segs with
  | nil => simp
  | cons s t ih =>
    have := countPieces_pos s.length
    simp only [List.map_cons, List.sum_cons, List.length_cons]
    omega

lemma sum_map_all_one (segs : List Seg) (f : Seg → Nat) (h : ∀ s ∈ segs, f s = 1) :
    (segs.map f).sum = segs.length := by
  induction segs with
  | nil => simp
  | cons s t ih =>
    simp only [List.map_cons, List.sum_cons, List.length_cons]
    rw [h s (by simp), ih (fun x hx => h x (by simp [hx]))]
    omega

lemma splitStep_length (segs : List Seg) (i : Nat) :
    (splitStep segs i).length = segs.length + 1 := by
  simp [splitStep]

lemma perm_splitStep (segs : List Seg) (i : Nat) (hi : i < segs.length) :
    List.Perm (splitStep segs i)
      (⟨(segs.getD i ⟨0, 0⟩).offset, (segs.getD i ⟨0, 0⟩).length / 2⟩ ::
        ⟨(segs.getD i ⟨0, 0⟩).offset + (segs.getD i ⟨0, 0⟩).length / 2,
          (segs.getD i ⟨0, 0⟩).length - (segs.getD i ⟨0, 0⟩).length / 2⟩ ::
        segs.eraseIdx i) := by
  unfold splitStep
  refine (List.perm_append_singleton _ _).trans ?_
  refine (List.Perm.cons _ (perm_set_cons_eraseIdx _ segs i hi)).trans ?_
  exact List.Perm.swap _ _ _

lemma sum_countPieces_splitStep (segs : List Seg) (i : Nat) (hi : i < segs.length)
    (hlen : 524288 ≤ (segs.getD i ⟨0, 0⟩).length) :
    ((splitStep segs i).map (fun s => countPieces s.length)).sum =
      (segs.map (fun s => countPieces s.length)).sum := by
  have e1 := ((perm_splitStep segs i hi).map (fun s => countPieces s.length)).sum_eq
  have e2 := ((perm_getD_cons_eraseIdx (⟨0, 0⟩ : Seg) segs i hi).map
    (fun s => countPieces s.length)).sum_eq
  simp only [List.map_cons, List.sum_cons] at e1 e2
  rw [e1, e2, countPieces_split hlen]
  omega

lemma createSegmentsAux_length :
    ∀ (fuel maxC : Nat) (segs : List Seg),
      segs ≠ [] → segs.length ≤ maxC → maxC ≤ fuel + segs.length →
      (createSegmentsAux fuel maxC segs).length =
        min maxC ((segs.map (fun s => countPieces s.length)).sum)
  | 0, maxC, segs, _, hle, hfuel => by
    unfold createSegmentsAux
    have h2 := length_le_sum_countPieces segs
    omega
  | fuel + 1, maxC, segs, hne, hle, hfuel => by
    unfold createSegmentsAux
    by_cases hc : segs.length < maxC
    · simp only [hc, if_true]
      have hi : maxLenIdx segs < segs.length := maxLenIdx_lt segs hne
      by_cases hmin : (segs.getD (maxLenIdx segs) ⟨0, 0⟩).length < MIN_SEGMENT_SIZE * 2
      · simp only [hmin, if_true]
        have hall : ∀ s ∈ segs, countPieces s.length = 1 := by
          intro s hs
          have hmax := maxLenIdx_max segs s hs
          rw [min2_eq] at hmin
          exact countPieces_small (by omega)
        have hsum := sum_map_all_one segs _ hall
        omega
      · simp only [hmin, if_false]
        have h524 : 524288 ≤ (segs.getD (maxLenIdx segs) ⟨0, 0⟩).length := by
          rw [min2_eq] at hmin; omega
        have hlen' := splitStep_length segs (maxLenIdx segs)
        have ih := createSegmentsAux_length fuel maxC (splitStep segs (maxLenIdx segs))
          (by intro h; rw [h] at hlen'; simp at hlen')
          (by omega) (by omega)
        rw [ih, sum_countPieces_splitStep segs (maxLenIdx segs) hi h524]
    · simp only [hc, if_false]
      have h2 := length_le_sum_countPieces segs
      omega

/-- C6 (amended): with `1 ≤ max_connections` and a file size within `i64`
range, `create_segments` stops splitting when the count reaches
`max_connections` or the largest segment is below `2 * MIN_SEGMENT_SIZE`,
and returns exactly `min(max_connections, countPieces size)` segments,
where `countPieces` is the halving recurrence
`C(l) = 1` if `l < 2·min`, else `C(⌊l/2⌋) + C(⌈l/2⌉)`; in particular every
size below `2·min = 524288` yields exactly one segment. -/
theorem c6_segment_count (size maxC : Nat) (h1 : 1 ≤ maxC) (h2 : size < 2 ^ 63) :
    (create_segments size maxC).length = min maxC (countPieces (size : Int)) ∧
      (size < 2 * 262144 → (create_segments size maxC).length = 1) := by
  have hcast : u64ToI64 size = (size : Int) := by unfold u64ToI64; rw [if_pos h2]
  have hmain := createSegmentsAux_length maxC maxC [⟨0, u64ToI64 size⟩]
    (by simp) (by simpa using h1) (by simp)
  rw [create_segments, hmain]
  simp only [List.map_cons, List.map_nil, List.sum_cons, List.sum_nil, hcast]
  constructor
  · omega
  · intro hsmall
    have : countPieces (size : Int) = 1 :=
      countPieces_small (by exact_mod_cast (by omega : size < 524288))
    omega

/-- Witness for C6 on a 1 MiB file with 8 connections: `min(8, C(2^20)) = 4`
segments, and a small file yields one segment. -/
theorem c6_segment_count_witness :
    ((1 ≤ 8 ∧ 1048576 < 2 ^ 63) ∧
      ((create_segments 1048576 8).length = min 8 (countPieces (1048576 : Int)) ∧
        (1048576 < 2 * 262144 → (create_segments 1048576 8).length = 1))) ∧
      ((create_segments 100000 4).length = min 4 (countPieces (100000 : Int)) ∧
        (100000 < 2 * 262144 → (create_segments 100000 4).length = 1)) :=
  ⟨⟨⟨by decide, by decide⟩, c6_segment_count 1048576 8 (by decide) (by decide)⟩,
    c6_segment_count 100000 4 (by decide) (by decide)⟩

lemma countCover_nil (x : Int) : countCover [] x = 0 := rfl

lemma countCover_cons (s : Seg) (t : List Seg) (x : Int) :
    countCover (s :: t) x = segInd s x + countCover t x := by
  simp [countCover]

lemma le_countCover_of_mem {s : Seg} {l : List Seg} {x : Int}
    (h : s ∈ l) (hx : segInd s x = 1) : 1 ≤ countCover l x := by
  induction l with
  | nil => simp at h
  | cons t rest ih =>
    rw [countCover_cons]
    rcases List.mem_cons.mp h with rfl | hrest
    · omega
    · have := ih hrest
      omega

lemma exists_mem_of_countCover_pos {l : List Seg} {x : Int}
    (h : 1 ≤ countCover l x) : ∃ s ∈ l, s.offset ≤ x ∧ x < s.offset + s.length := by
  induction l with
  | nil => simp [countCover_nil] at h
  | cons t rest ih =>
    rw [countCover_cons] at h
    by_cases ht : t.offset ≤ x ∧ x < t.offset + t.length
    · exact ⟨t, by simp, ht⟩
    · have hz : segInd t x = 0 := by unfold segInd; rw [if_neg ht]
      rw [hz] at h
      obtain ⟨s, hs, hmem⟩ := ih (by omega)
      exact ⟨s, by simp [hs], hmem⟩

lemma countCover_splitStep (segs : List Seg) (i : Nat) (hi : i < segs.length)
    (h0 : 0 ≤ (segs.getD i ⟨0, 0⟩).length) (x : Int) :
    countCover (splitStep segs i) x = countCover segs x := by
  have e1 := ((perm_splitStep segs i hi).map (fun s => segInd s x)).sum_eq
  have e2 := ((perm_getD_cons_eraseIdx (⟨0, 0⟩ : Seg) segs i hi).map
    (fun s => segInd s x)).sum_eq
  simp only [countCover] at e1 e2 ⊢
  rw [e1, e2]
  simp only [List.map_cons, List.sum_cons]
  unfold segInd
  simp only
  split_ifs <;> omega

lemma splitStep_lengths_pos (segs : List Seg) (i : Nat) (hi : i < segs.length)
    (h524 : 524288 ≤ (segs.getD i ⟨0, 0⟩).length)
    (hall : ∀ s ∈ segs, 0 < s.length) :
    ∀ s ∈ splitStep segs i, 0 < s.length := by
  intro s hs
  have hmem := (perm_splitStep segs i hi).mem_iff.mp hs
  rcases List.mem_cons.mp hmem with rfl | hmem2
  · simp only
    omega
  · rcases List.mem_cons.mp hmem2 with rfl | hmem3
    · simp only
      omega
    · exact hall s (List.eraseIdx_subset _ _ hmem3)

lemma createSegmentsAux_inv (P : List Seg → Prop)
    (hstep : ∀ segs, segs ≠ [] →
      524288 ≤ (segs.getD (maxLenIdx segs) ⟨0, 0⟩).length →
      P segs → P (splitStep segs (maxLenIdx segs))) :
    ∀ (fuel maxC : Nat) (segs : List Seg), segs ≠ [] → P segs →
      P (createSegmentsAux fuel maxC segs)
  | 0, _, segs, _, hp => by unfold createSegmentsAux; exact hp
  | fuel + 1, maxC, segs, hne, hp => by
    unfold createSegmentsAux
    by_cases hc : segs.length < maxC
    · simp only [hc, if_true]
      by_cases hmin : (segs.getD (maxLenIdx segs) ⟨0, 0⟩).length < MIN_SEGMENT_SIZE * 2
      · simp only [hmin, if_true]
        exact hp
      · simp only [hmin, if_false]
        have h524 : 524288 ≤ (segs.getD (maxLenIdx segs) ⟨0, 0⟩).length := by
          rw [min2_eq] at hmin; omega
        have hlen' := splitStep_length segs (maxLenIdx segs)
        exact createSegmentsAux_inv P hstep fuel maxC _
          (by intro h; rw [h] at hlen'; simp at hlen')
          (hstep segs hne h524 hp)
    · simp only [hc, if_false]
      exact hp

lemma pairwise_disjoint_of_cover :
    ∀ (l : List Seg), (∀ s ∈ l, 0 < s.length) → (∀ x, countCover l x ≤ 1) →
      List.Pairwise segDisjoint l
  | [], _, _ => by simp
  | s :: t, hpos, hle => by
    refine List.Pairwise.cons ?_
      (pairwise_disjoint_of_cover t (fun u hu => hpos u (by simp [hu]))
        (fun x => by have := hle x; rw [countCover_cons] at this; omega))
    intro u hu
    by_contra hnd
    unfold segDisjoint at hnd
    push_neg at hnd
    obtain ⟨h1, h2⟩ := hnd
    have hslen := hpos s (by simp)
    have hulen := hpos u (by simp [hu])
    have hsx : segInd s (max s.offset u.offset) = 1 := by
      unfold segInd
      rw [if_pos ⟨le_max_left _ _, by rw [max_lt_iff]; omega⟩]
    have hux : segInd u (max s.offset u.offset) = 1 := by
      unfold segInd
      rw [if_pos ⟨le_max_right _ _, by rw [max_lt_iff]; omega⟩]
    have hcu := le_countCover_of_mem hu hux
    have hcx := hle (max s.offset u.offset)
    rw [countCover_cons] at hcx
    omega

lemma contiguous_of_sorted_cover (fin : Int) :
    ∀ (l : List Seg) (a : Int), List.Sorted segLE l →
      (∀ s ∈ l, 0 < s.length) →
      (∀ x, countCover l x = if a ≤ x ∧ x < fin then 1 else 0) →
      a ≤ fin →
      contiguousFrom a fin l = true
  | [], a, _, _, hcount, hle => by
    have h := hcount a
    rw [countCover_nil] at h
    by_cases hlt : a < fin
    · rw [if_pos ⟨le_refl a, hlt⟩] at h
      omega
    · have : a = fin := le_antisymm hle (not_lt.mp hlt)
      simp [contiguousFrom, this]
  | s :: t, a, hsort, hpos, hcount, hle => by
    have hmemoff : ∀ m ∈ s :: t, a ≤ m.offset ∧ m.offset < fin := by
      intro m hm
      have hml := hpos m hm
      have hseg : segInd m m.offset = 1 := by
        unfold segInd
        rw [if_pos ⟨le_refl _, by omega⟩]
      have h1 := le_countCover_of_mem hm hseg
      have h2 := hcount m.offset
      by_cases hif : a ≤ m.offset ∧ m.offset < fin
      · exact hif
      · rw [if_neg hif] at h2
        omega
    have hca := hcount a
    rw [if_pos ⟨le_refl a,
      lt_of_le_of_lt (hmemoff s (by simp)).1 (hmemoff s (by simp)).2⟩] at hca
    obtain ⟨m, hm, hma1, hma2⟩ := @exists_mem_of_countCover_pos (s :: t) a (by omega)
    have hmoff : m.offset = a := le_antisymm hma1 (hmemoff m hm).1
    have hsoff : s.offset = a := by
      rcases List.mem_cons.mp hm with rfl | hmt
      · exact hmoff
      · have hrel := (List.sorted_cons.mp hsort).1 m hmt
        have ha := (hmemoff s (by simp)).1
        unfold segLE at hrel
        omega
    have hslen := hpos s (by simp)
    have hend : a + s.length ≤ fin := by
      have hseg : segInd s (a + s.length - 1) = 1 := by
        unfold segInd
        rw [if_pos ⟨by omega, by omega⟩]
      have h1 := le_countCover_of_mem (by simp : s ∈ s :: t) hseg
      have h2 := hcount (a + s.length - 1)
      by_cases hif : a ≤ a + s.length - 1 ∧ a + s.length - 1 < fin
      · omega
      · rw [if_neg hif] at h2
        omega
    have htail : ∀ x, countCover t x = if a + s.length ≤ x ∧ x < fin then 1 else 0 := by
      intro x
      have h2 := hcount x
      rw [countCover_cons] at h2
      unfold segInd at h2
      rw [hsoff] at h2
      split_ifs at h2 ⊢ <;> omega
    have ihyp := contiguous_of_sorted_cover fin t (a + s.length)
      (List.sorted_cons.mp hsort).2
      (fun u hu => hpos u (by simp [hu])) htail (by omega)
    simp [contiguousFrom, hsoff, ihyp]

lemma sum_of_contiguous :
    ∀ (l : List Seg) (a fin : Int), contiguousFrom a fin l = true →
      a + (l.map (fun s => s.length)).sum = fin
  | [], a, fin, h => by
    simp [contiguousFrom] at h
    simpa using h
  | s :: t, a, fin, h => by
    simp only [contiguousFrom, Bool.and_eq_true, beq_iff_eq] at h
    have := sum_of_contiguous t (a + s.length) fin h.2
    simp only [List.map_cons, List.sum_cons]
    omega

lemma create_segments_zero (maxC : Nat) : create_segments 0 maxC = [⟨0, 0⟩] := by
  unfold create_segments
  have h0 : u64ToI64 0 = 0 := by norm_num [u64ToI64]
  rw [h0]
  cases maxC with
  | zero => rfl
  | succ n =>
    unfold createSegmentsAux
    by_cases h : 1 < n + 1
    · simp only [List.length_cons, List.length_nil, h, if_true]
      norm_num [maxLenIdx, MIN_SEGMENT_SIZE]
    · simp [h]

/-- C2 (amended): for every `max_connections ≥ 1` and every file size within
`i64` range, the planner's segments are pairwise disjoint, when sorted by
offset they tile `[0, size)` contiguously starting at 0, and their lengths
sum to the file size. -/
theorem c2_planner_covers (size maxC : Nat) (h1 : 1 ≤ maxC) (h2 : size < 2 ^ 63) :
    List.Pairwise segDisjoint (create_segments size maxC) ∧
      contiguousFrom 0 (size : Int) (sortByOffset (create_segments size maxC)) = true ∧
      ((create_segments size maxC).map (fun s => s.length)).sum = (size : Int) := by
  by_cases hz : size = 0
  · subst hz
    rw [create_segments_zero]
    refine ⟨by simp, ?_, by simp⟩
    simp [sortByOffset, contiguousFrom]
  · have hsz : (0 : Int) < (size : Int) := by
      exact_mod_cast Nat.pos_of_ne_zero hz
    have hcast : u64ToI64 size = (size : Int) := by unfold u64ToI64; rw [if_pos h2]
    have hstep : ∀ segs, segs ≠ [] →
        524288 ≤ (segs.getD (maxLenIdx segs) ⟨0, 0⟩).length →
        ((∀ s ∈ segs, 0 < s.length) ∧
          (∀ x, countCover segs x = if 0 ≤ x ∧ x < (size : Int) then 1 else 0)) →
        ((∀ s ∈ splitStep segs (maxLenIdx segs), 0 < s.length) ∧
          (∀ x, countCover (splitStep segs (maxLenIdx segs)) x =
            if 0 ≤ x ∧ x < (size : Int) then 1 else 0)) := by
      intro segs hne h524 ⟨hpos, hcount⟩
      have hi := maxLenIdx_lt segs hne
      exact ⟨splitStep_lengths_pos segs _ hi h524 hpos,
        fun x => by rw [countCover_splitStep segs _ hi (by omega) x]; exact hcount x⟩
    have hinit : (∀ s ∈ [(⟨0, u64ToI64 size⟩ : Seg)], 0 < s.length) ∧
        (∀ x, countCover [(⟨0, u64ToI64 size⟩ : Seg)] x =
          if 0 ≤ x ∧ x < (size : Int) then 1 else 0) := by
      constructor
      · intro s hs
        simp at hs
        subst hs
        simpa [hcast] using hsz
      · intro x
        rw [countCover_cons, countCover_nil]
        unfold segInd
        simp [hcast]
    have hfinal := createSegmentsAux_inv _ hstep maxC maxC [⟨0, u64ToI64 size⟩]
      (by simp) hinit
    rw [show createSegmentsAux maxC maxC [(⟨0, u64ToI64 size⟩ : Seg)] =
      create_segments size maxC from rfl] at hfinal
    obtain ⟨hpos, hcount⟩ := hfinal
    have hsortperm := List.perm_insertionSort segLE (create_segments size maxC)
    have hsorted := List.sorted_insertionSort segLE (create_segments size maxC)
    have hcount' : ∀ x, countCover (sortByOffset (create_segments size maxC)) x =
        if 0 ≤ x ∧ x < (size : Int) then 1 else 0 := by
      intro x
      have := (hsortperm.map (fun s => segInd s x)).sum_eq
      simp only [countCover, sortByOffset]
      rw [this]
      exact hcount x
    have hpos' : ∀ s ∈ sortByOffset (create_segments size maxC), 0 < s.length := by
      intro s hs
      exact hpos s (hsortperm.mem_iff.mp hs)
    have hcontig := contiguous_of_sorted_cover (size : Int)
      (sortByOffset (create_segments size maxC)) 0 hsorted hpos' hcount' (by omega)
    refine ⟨?_, hcontig, ?_⟩
    · exact pairwise_disjoint_of_cover _ hpos
        (fun x => by rw [hcount x]; split_ifs <;> omega)
    · have hsum := sum_of_contiguous _ 0 (size : Int) hcontig
      have := (hsortperm.map (fun s => s.length)).sum_eq
      simp only [sortByOffset] at this hsum
      omega

/-- Witness for C2 on a 1 MiB file with 4 connections. -/
theorem c2_planner_covers_witness :
    (1 ≤ 4 ∧ 1048576 < 2 ^ 63) ∧
      (List.Pairwise segDisjoint (create_segments 1048576 4) ∧
        contiguousFrom 0 (1048576 : Int) (sortByOffset (create_segments 1048576 4)) = true ∧
        ((create_segments 1048576 4).map (fun s => s.length)).sum = (1048576 : Int)) :=
  ⟨⟨by decide, by decide⟩, c2_planner_covers 1048576 4 (by decide) (by decide)⟩

/-!
## C1 / C5 — the fetcher's write cap, early stop, and cancellation
-/

lemma runChunks_frame (cancelAt : Option Nat) (len : Int) (rem : Nat) :
    ∀ (chunks : List ChunkItem) (st : FetchSt) (bw : Nat),
      (runChunks cancelAt len rem st bw chunks).1.retries = st.retries ∧
      (runChunks cancelAt len rem st bw chunks).1.delays = st.delays
  | [], st, bw => by simp [runChunks]
  | item :: rest, st, bw => by
    rw [runChunks]
    split
    · exact ⟨rfl, rfl⟩
    · cases item with
      | chunkErr => exact ⟨rfl, rfl⟩
      | data c =>
        simp only
        repeat' split
        all_goals
          first
            | exact ⟨rfl, rfl⟩
            | simpa using runChunks_frame cancelAt len rem rest _ _

lemma sumBytes_data_cons (c : List Nat) (cs : List ChunkItem) :
    sumBytes (.data c :: cs) = c.length + sumBytes cs := by
  simp [sumBytes]

lemma sumBytes_err_cons (cs : List ChunkItem) :
    sumBytes (.chunkErr :: cs) = sumBytes cs := by
  simp [sumBytes]

lemma runChunks_acct (cancelAt : Option Nat) (len : Int) (rem : Nat) :
    ∀ (chunks : List ChunkItem) (st : FetchSt) (bw : Nat) (st' : FetchSt)
      (bw' : Nat) (ex : StreamExit),
      runChunks cancelAt len rem st bw chunks = (st', bw', ex) →
      st'.file.length + bw = st.file.length + bw' ∧
      st'.downloaded + (bw : Int) = st.downloaded + (bw' : Int) ∧
      bw ≤ bw' ∧ st'.retries = st.retries ∧ st'.delays = st.delays
  | [], st, bw, st', bw', ex, h => by
    rw [runChunks] at h
    injection h with h1 h23
    injection h23 with h2 h3
    subst h1
    subst h2
    simp
  | item :: rest, st, bw, st', bw', ex, h => by
    rw [runChunks] at h
    dsimp only at h
    repeat' split at h
    all_goals
      first
        | (injection h with h1 h23
           injection h23 with h2 h3
           subst h1
           subst h2
           refine ⟨?_, ?_, ?_, rfl, rfl⟩ <;> (simp [List.length_append]; try omega))
        | (have ih := runChunks_acct cancelAt len rem rest _ _ _ _ _ h
           simp only [List.length_append] at ih
           obtain ⟨i1, i2, i3, i4, i5⟩ := ih
           exact ⟨by omega, by omega, by omega, by simp [i4], by simp [i5]⟩)

lemma runChunks_cap (cancelAt : Option Nat) {len : Int} (hlen : 0 < len) (rem : Nat) :
    ∀ (chunks : List ChunkItem) (st : FetchSt) (bw : Nat) (st' : FetchSt)
      (bw' : Nat) (ex : StreamExit),
      bw ≤ rem →
      runChunks cancelAt len rem st bw chunks = (st', bw', ex) →
      bw' ≤ rem
  | [], st, bw, st', bw', ex, hbw, h => by
    rw [runChunks] at h
    injection h with h1 h23
    injection h23 with h2 h3
    omega
  | item :: rest, st, bw, st', bw', ex, hbw, h => by
    rw [runChunks] at h
    dsimp only at h
    repeat' split at h
    all_goals
      first
        | (injection h with h1 h23
           injection h23 with h2 h3
           try simp only [List.length_take] at h2
           omega)
        | (exact absurd hlen (by assumption))
        | (refine runChunks_cap cancelAt hlen rem rest _ _ _ _ _ ?_ h
           simp only [List.length_take]
           omega)

lemma runChunks_early_stop (cancelAt : Option Nat) {len : Int} (hlen : 0 < len) (rem : Nat) :
    ∀ (cs rest : List ChunkItem) (st : FetchSt) (bw : Nat),
      bw < rem → rem ≤ bw + sumBytes cs →
      runChunks cancelAt len rem st bw (cs ++ rest) =
        runChunks cancelAt len rem st bw cs
  | [], rest, st, bw, hlt, hsum => by
    rw [sumBytes] at hsum
    simp at hsum
    omega
  | item :: cs, rest, st, bw, hlt, hsum => by
    rw [List.cons_append, runChunks, runChunks]
    dsimp only
    split
    · rfl
    · split
      · rfl
      · next c =>
        rw [sumBytes_data_cons] at hsum
        repeat' split
        · rfl
        · rfl
        · next hemp hcap =>
          have hlen2 : (c.take (min c.length (rem - bw))).length =
              min c.length (rem - bw) := by
            simp [List.length_take]
          have hnc : ¬ rem ≤ bw + (c.take (min c.length (rem - bw))).length :=
            fun hc => hcap ⟨hlen, hc⟩
          rw [hlen2] at hnc
          have hfull : min c.length (rem - bw) = c.length := by omega
          apply runChunks_early_stop cancelAt hlen rem cs rest
          · rw [hlen2]
            omega
          · rw [hlen2, hfull]
            omega

lemma runChunks_exact {len : Int} (hlen : 0 < len) (rem : Nat) :
    ∀ (cs : List (List Nat)) (st : FetchSt) (bw : Nat),
      (∀ c ∈ cs, c ≠ []) → bw ≤ rem →
      rem ≤ bw + sumBytes (cs.map ChunkItem.data) →
      ∃ st', runChunks none len rem st bw (cs.map ChunkItem.data) = (st', rem, .done)
  | [], st, bw, _, hle, hsum => by
    rw [List.map_nil, runChunks]
    rw [sumBytes] at hsum
    simp at hsum
    exact ⟨st, by rw [show bw = rem by omega]⟩
  | c :: cs, st, bw, hne, hle, hsum => by
    rw [List.map_cons, runChunks]
    dsimp only
    rw [show isCancelled none st.polls = false from rfl]
    rw [if_neg (by simp : ¬ (false = true))]
    rw [if_pos hlen]
    rw [List.map_cons, sumBytes_data_cons] at hsum
    by_cases hbw : bw = rem
    · have h0 : rem - bw = 0 := by omega
      rw [h0]
      simp only [Nat.min_zero, List.take_zero, List.isEmpty_nil, if_pos]
      exact ⟨_, by rw [hbw]⟩
    · have hbwlt : bw < rem := by omega
      have hcne : c ≠ [] := hne c (by simp)
      have hcpos : 0 < c.length := List.length_pos.mpr hcne
      have htw : (c.take (min c.length (rem - bw))).length = min c.length (rem - bw) := by
        simp [List.length_take]
      have hnemp : ¬ (c.take (min c.length (rem - bw))).isEmpty = true := by
        rw [List.isEmpty_iff_length_eq_zero, htw]
        omega
      rw [if_neg hnemp]
      by_cases hcap : rem ≤ bw + (c.take (min c.length (rem - bw))).length
      · rw [if_pos ⟨hlen, hcap⟩]
        rw [htw] at hcap
        have : bw + (c.take (min c.length (rem - bw))).length = rem := by
          rw [htw]; omega
        exact ⟨_, by rw [this]⟩
      · rw [if_neg (fun hand => hcap hand.2)]
        rw [htw] at hcap
        have hfull : min c.length (rem - bw) = c.length := by omega
        apply runChunks_exact hlen rem cs _ _
          (fun x hx => hne x (by simp [hx])) (by rw [htw]; omega)
        rw [htw, hfull]
        omega


lemma retryStep_same_file (st : FetchSt) :
    (∀ out, retryStep st = .inl out →
        out.final.file = st.file ∧ out.final.downloaded = st.downloaded) ∧
    (∀ st2, retryStep st = .inr st2 →
        st2.file = st.file ∧ st2.downloaded = st.downloaded) := by
  unfold retryStep
  constructor <;> intro x h <;> dsimp only at h <;> split at h <;>
    first
      | (injection h with h'; subst h'; exact ⟨rfl, rfl⟩)
      | exact Sum.noConfusion h

lemma attemptStep_c1 (cancelAt : Option Nat) {len : Int} (hlen : 0 < len)
    (hlen63 : len < 2 ^ 63) (st : FetchSt) (a : Attempt)
    (h0 : 0 ≤ st.downloaded) (h1 : st.downloaded ≤ len)
    (h2 : st.file.length = st.downloaded.toNat) :
    (∀ out, attemptStep cancelAt len st a = .inl out →
        0 ≤ out.final.downloaded ∧ out.final.downloaded ≤ len ∧
        out.final.file.length = out.final.downloaded.toNat) ∧
    (∀ st2, attemptStep cancelAt len st a = .inr st2 →
        0 ≤ st2.downloaded ∧ st2.downloaded ≤ len ∧
        st2.file.length = st2.downloaded.toNat) := by
  cases a with
  | sendErr =>
    have hr := retryStep_same_file st
    constructor
    · intro out h
      obtain ⟨hf, hd⟩ := hr.1 out h
      exact ⟨by rw [hd]; exact h0, by rw [hd]; exact h1, by rw [hf, hd]; exact h2⟩
    · intro st2 h
      obtain ⟨hf, hd⟩ := hr.2 st2 h
      exact ⟨by rw [hd]; exact h0, by rw [hd]; exact h1, by rw [hf, hd]; exact h2⟩
  | response chunks =>
    unfold attemptStep
    dsimp only
    set st1 : FetchSt := if 0 < st.downloaded then st else { st with file := [] } with hst1
    have hd1 : st1.downloaded = st.downloaded := by
      rw [hst1]; split <;> rfl
    have hf1 : st1.file.length = st1.downloaded.toNat := by
      rw [hst1]
      split
      · exact h2
      · next hnp =>
        have hz : st.downloaded = 0 := by omega
        simp [hz]
    rw [if_pos hlen]
    have hrem : ((len - st1.downloaded) % 2 ^ 64).toNat =
        (len - st1.downloaded).toNat := by
      rw [Int.emod_eq_of_lt (by omega) (by omega)]
    rw [hrem]
    rcases hrc : runChunks cancelAt len (len - st1.downloaded).toNat st1 0 chunks
      with ⟨st2, bw', ex⟩
    obtain ⟨a1, a2, a3, a4, a5⟩ :=
      runChunks_acct cancelAt len _ chunks st1 0 st2 bw' ex hrc
    have cap := runChunks_cap cancelAt hlen _ chunks st1 0 st2 bw' ex (by omega) hrc
    have hP : 0 ≤ st2.downloaded ∧ st2.downloaded ≤ len ∧
        st2.file.length = st2.downloaded.toNat := ⟨by omega, by omega, by omega⟩
    cases ex with
    | done =>
      constructor
      · intro out h
        injection h with h'
        subst h'
        exact hP
      · intro st3 h
        exact Sum.noConfusion h
    | errRetry =>
      have hr := retryStep_same_file st2
      constructor
      · intro out h
        obtain ⟨hf, hd⟩ := hr.1 out h
        exact ⟨by rw [hd]; exact hP.1, by rw [hd]; exact hP.2.1,
          by rw [hf, hd]; exact hP.2.2⟩
      · intro st3 h
        obtain ⟨hf, hd⟩ := hr.2 st3 h
        exact ⟨by rw [hd]; exact hP.1, by rw [hd]; exact hP.2.1,
          by rw [hf, hd]; exact hP.2.2⟩
    | cancelled =>
      constructor
      · intro out h
        injection h with h'
        subst h'
        exact hP
      · intro st3 h
        exact Sum.noConfusion h

lemma runSegAux_c1 (cancelAt : Option Nat) {len : Int} (hlen : 0 < len)
    (hlen63 : len < 2 ^ 63) :
    ∀ (script : List Attempt) (st : FetchSt),
      0 ≤ st.downloaded → st.downloaded ≤ len →
      st.file.length = st.downloaded.toNat →
      ∀ out, runSegAux cancelAt len st script = some out →
        0 ≤ out.final.downloaded ∧ out.final.downloaded ≤ len ∧
        out.final.file.length = out.final.downloaded.toNat
  | [], st, h0, h1, h2, out, h => by
    rw [runSegAux] at h
    split at h
    · injection h with h'
      subst h'
      exact ⟨h0, h1, h2⟩
    · exact Option.noConfusion h
  | attempt :: rest, st, h0, h1, h2, out, h => by
    rw [runSegAux] at h
    split at h
    · injection h with h'
      subst h'
      exact ⟨h0, h1, h2⟩
    · have hstep := attemptStep_c1 cancelAt hlen hlen63
        { st with polls := st.polls + 1 } attempt h0 h1 h2
      split at h
      · next out' heq =>
        injection h with h'
        subst h'
        exact hstep.1 _ heq
      · next st2 heq =>
        have hnext := hstep.2 st2 heq
        exact runSegAux_c1 cancelAt hlen hlen63 rest st2
          hnext.1 hnext.2.1 hnext.2.2 out h

/-- C1: for a segment with known length (`0 < length`, within `i64` range)
and the data-model invariant `0 ≤ downloaded ≤ length` (scratch file holding
`downloaded` bytes), `download_segment` (a) never lets the scratch file
exceed `length` bytes — it writes at most `length - downloaded` more — even
across retries and whatever the response bodies contain (in particular a
200 OK full body); (b) stops consuming the response body as soon as the cap
is reached: chunks past the point where `remaining` bytes have accumulated
are never read; and (c) against a Range-ignoring server that sends enough
body bytes in one response, the call finishes with the scratch file at
exactly `length` bytes — the expected size, not N copies of the file. -/
theorem c1_write_cap_and_early_stop :
    (∀ (cancelAt : Option Nat) (len downloaded : Int) (scratch : List Nat)
        (script : List Attempt) (out : GrabOutcome),
      0 < len → len < 2 ^ 63 → 0 ≤ downloaded → downloaded ≤ len →
      scratch.length = downloaded.toNat →
      runSeg cancelAt len downloaded scratch script = some out →
      out.final.downloaded ≤ len ∧
      out.final.file.length = out.final.downloaded.toNat ∧
      out.final.file.length ≤ len.toNat) ∧
    (∀ (cancelAt : Option Nat) (len : Int) (rem : Nat) (cs rest : List ChunkItem)
        (st : FetchSt) (bw : Nat),
      0 < len → bw < rem → rem ≤ bw + sumBytes cs →
      runChunks cancelAt len rem st bw (cs ++ rest) =
        runChunks cancelAt len rem st bw cs) ∧
    (∀ (len downloaded : Int) (scratch : List Nat) (cs : List (List Nat)),
      0 < len → len < 2 ^ 63 → 0 ≤ downloaded → downloaded ≤ len →
      scratch.length = downloaded.toNat →
      (∀ c ∈ cs, c ≠ []) →
      (len - downloaded).toNat ≤ sumBytes (cs.map ChunkItem.data) →
      ∃ out, runSeg none len downloaded scratch [.response (cs.map ChunkItem.data)] =
          some out ∧
        out.result = .ok len ∧ out.segState = .finished ∧
        out.final.file.length = len.toNat) := by
  refine ⟨?_, ?_, ?_⟩
  · intro cancelAt len downloaded scratch script out hlen hlen63 h0 h1 h2 h
    have := runSegAux_c1 cancelAt hlen hlen63 script
      { file := scratch, downloaded := downloaded, retries := 0, polls := 0, delays := [] }
      h0 h1 h2 out h
    exact ⟨this.2.1, this.2.2, by omega⟩
  · intro cancelAt len rem cs rest st bw hlen hlt hsum
    exact runChunks_early_stop cancelAt hlen rem cs rest st bw hlt hsum
  · intro len downloaded scratch cs hlen hlen63 h0 h1 h2 hne hsum
    rw [runSeg, runSegAux]
    rw [show isCancelled none 0 = false from rfl]
    rw [if_neg (by simp : ¬ (false = true))]
    unfold attemptStep
    dsimp only
    set st0 : FetchSt :=
      { file := scratch, downloaded := downloaded, retries := 0, polls := 0 + 1, delays := [] }
      with hst0
    set st1 : FetchSt := if 0 < st0.downloaded then st0 else { st0 with file := [] }
      with hst1
    have hd1 : st1.downloaded = downloaded := by
      rw [hst1]; split <;> rfl
    have hf1 : st1.file.length = st1.downloaded.toNat := by
      rw [hst1]
      split
      · exact h2
      · next hnp =>
        have hz : st0.downloaded = downloaded := rfl
        have : downloaded = 0 := by rw [hst0] at hnp; dsimp at hnp; omega
        simp [this]
    rw [if_pos hlen]
    have hrem : ((len - st1.downloaded) % 2 ^ 64).toNat = (len - st1.downloaded).toNat := by
      rw [Int.emod_eq_of_lt (by omega) (by omega)]
    rw [hrem]
    obtain ⟨st', hrc⟩ := runChunks_exact hlen ((len - st1.downloaded).toNat) cs st1 0
      hne (by omega) (by rw [hd1]; omega)
    obtain ⟨a1, a2, a3, a4, a5⟩ :=
      runChunks_acct none len _ (cs.map ChunkItem.data) st1 0 st' _ _ hrc
    rw [hrc]
    refine ⟨_, rfl, ?_, rfl, ?_⟩
    · dsimp only
      have : st'.downloaded = len := by omega
      rw [this]
    · dsimp only
      omega

/-- Witness for C1: a segment of length 10 receiving a 12-byte full body
(Range-ignoring server) ends with a 10-byte scratch file. -/
theorem c1_write_cap_and_early_stop_witness :
    (runSeg none 10 0 [] [.response [.data [1, 2, 3], .data [4, 5, 6, 7, 8, 9, 10, 11, 12]]] =
        some ⟨.ok 10, .finished, ⟨[1, 2, 3, 4, 5, 6, 7, 8, 9, 10], 10, 0, 3, []⟩⟩) ∧
      ((⟨.ok 10, .finished, ⟨[1, 2, 3, 4, 5, 6, 7, 8, 9, 10], 10, 0, 3, []⟩⟩ :
          GrabOutcome).final.downloaded ≤ 10 ∧
        (⟨.ok 10, .finished, ⟨[1, 2, 3, 4, 5, 6, 7, 8, 9, 10], 10, 0, 3, []⟩⟩ :
          GrabOutcome).final.file.length =
          (⟨.ok 10, .finished, ⟨[1, 2, 3, 4, 5, 6, 7, 8, 9, 10], 10, 0, 3, []⟩⟩ :
            GrabOutcome).final.downloaded.toNat ∧
        (⟨.ok 10, .finished, ⟨[1, 2, 3, 4, 5, 6, 7, 8, 9, 10], 10, 0, 3, []⟩⟩ :
          GrabOutcome).final.file.length ≤ (10 : Int).toNat) :=
  ⟨by rfl,
    c1_write_cap_and_early_stop.1 none 10 0 []
      [.response [.data [1, 2, 3], .data [4, 5, 6, 7, 8, 9, 10, 11, 12]]]
      ⟨.ok 10, .finished, ⟨[1, 2, 3, 4, 5, 6, 7, 8, 9, 10], 10, 0, 3, []⟩⟩
      (by decide) (by decide) (by decide) (by decide) (by rfl) (by rfl)⟩

lemma attemptStep_c5 (cancelAt : Option Nat) (len : Int) (st : FetchSt) (a : Attempt)
    (hinv : st.retries = st.delays.length) (hle : st.retries ≤ 2) :
    (∀ out, attemptStep cancelAt len st a = .inl out →
        (out.result = .error .cancelled →
          out.final.retries = out.final.delays.length ∧ out.final.retries ≤ 2) ∧
        (out.result = .error .maxRetryExceeded →
          out.final.retries = 3 ∧ out.final.delays.length = 2)) ∧
    (∀ st2, attemptStep cancelAt len st a = .inr st2 →
        st2.retries = st2.delays.length ∧ st2.retries ≤ 2) := by
  have hretry : ∀ s : FetchSt, s.retries = s.delays.length → s.retries ≤ 2 →
      (∀ out, retryStep s = .inl out →
        (out.result = .error .cancelled →
          out.final.retries = out.final.delays.length ∧ out.final.retries ≤ 2) ∧
        (out.result = .error .maxRetryExceeded →
          out.final.retries = 3 ∧ out.final.delays.length = 2)) ∧
      (∀ st2, retryStep s = .inr st2 →
        st2.retries = st2.delays.length ∧ st2.retries ≤ 2) := by
    intro s hi hl
    unfold retryStep
    dsimp only
    constructor
    · intro out h
      split at h
      · next hmax =>
        injection h with h'
        subst h'
        constructor
        · intro hres
          simp at hres
        · intro hres
          refine ⟨?_, ?_⟩ <;> (dsimp only; try rw [MAX_RETRIES] at hmax) <;> omega
      · exact Sum.noConfusion h
    · intro st2 h
      split at h
      · exact Sum.noConfusion h
      · next hmax =>
        injection h with h'
        subst h'
        rw [MAX_RETRIES] at hmax
        constructor
        · dsimp only
          simp [hi]
        · dsimp only
          omega
  cases a with
  | sendErr => exact hretry st hinv hle
  | response chunks =>
    unfold attemptStep
    dsimp only
    set st1 : FetchSt := if 0 < st.downloaded then st else { st with file := [] } with hst1
    set remv : Nat :=
      if 0 < len then ((len - st1.downloaded) % 2 ^ 64).toNat else 2 ^ 64 - 1 with hremv
    rcases hrc : runChunks cancelAt len remv st1 0 chunks with ⟨st2, bw', ex⟩
    have hst1inv : st1.retries = st1.delays.length := by
      rw [hst1]; split <;> exact hinv
    have hst1le : st1.retries ≤ 2 := by
      rw [hst1]; split <;> exact hle
    obtain ⟨a1, a2, a3, a4, a5⟩ :=
      runChunks_acct cancelAt len _ chunks _ 0 st2 bw' ex hrc
    have h2inv : st2.retries = st2.delays.length := by rw [a4, a5]; exact hst1inv
    have h2le : st2.retries ≤ 2 := by rw [a4]; exact hst1le
    cases ex with
    | done =>
      constructor
      · intro out h
        injection h with h'
        subst h'
        constructor
        · intro hres
          simp at hres
        · intro hres
          simp at hres
      · intro st3 h
        exact Sum.noConfusion h
    | errRetry => exact hretry st2 h2inv h2le
    | cancelled =>
      constructor
      · intro out h
        injection h with h'
        subst h'
        constructor
        · intro hres
          exact ⟨h2inv, h2le⟩
        · intro hres
          simp at hres
      · intro st3 h
        exact Sum.noConfusion h

lemma runSegAux_c5 (cancelAt : Option Nat) (len : Int) :
    ∀ (script : List Attempt) (st : FetchSt),
      st.retries = st.delays.length → st.retries ≤ 2 →
      ∀ out, runSegAux cancelAt len st script = some out →
        (out.result = .error .cancelled →
          out.final.retries = out.final.delays.length ∧
          out.final.retries < MAX_RETRIES) ∧
        (out.result = .error .maxRetryExceeded →
          out.final.retries = MAX_RETRIES ∧ out.final.delays.length = 2)
  | [], st, hinv, hle, out, h => by
    rw [runSegAux] at h
    split at h
    · injection h with h'
      subst h'
      exact ⟨fun _ => ⟨hinv, by dsimp only; rw [MAX_RETRIES]; omega⟩,
        fun hres => by simp at hres⟩
    · exact Option.noConfusion h
  | attempt :: rest, st, hinv, hle, out, h => by
    rw [runSegAux] at h
    split at h
    · injection h with h'
      subst h'
      exact ⟨fun _ => ⟨hinv, by dsimp only; rw [MAX_RETRIES]; omega⟩,
        fun hres => by simp at hres⟩
    · have hstep := attemptStep_c5 cancelAt len
        { st with polls := st.polls + 1 } attempt hinv hle
      split at h
      · next out' heq =>
        injection h with h'
        subst h'
        have hout := hstep.1 _ heq
        exact ⟨fun hres => by
            have := (hout.1 hres)
            exact ⟨this.1, by rw [MAX_RETRIES]; omega⟩,
          fun hres => by
            have := hout.2 hres
            exact ⟨by rw [MAX_RETRIES]; omega, this.2⟩⟩
      · next st2 heq =>
        have hnext := hstep.2 st2 heq
        exact runSegAux_c5 cancelAt len rest st2 hnext.1 hnext.2 out h

/-- C5: whenever `download_segment` observes the cancellation token —
polled at the top of each attempt (before the request) and before
processing each received body chunk — it returns `Cancelled` without
incrementing the retry counter: on every `Cancelled` return the retry
counter equals the number of backoff sleeps performed (each genuine
transport-error retry contributes exactly one) and is below `MAX_RETRIES`,
while `MaxRetryExceeded` is returned only with the counter at the full
budget of 3; and a token cancelled from the start makes the call return
`Cancelled` immediately, with no request sent and the state untouched. -/
theorem c5_cancelled_not_retry :
    (∀ (cancelAt : Option Nat) (len downloaded : Int) (scratch : List Nat)
        (script : List Attempt) (out : GrabOutcome),
      runSeg cancelAt len downloaded scratch script = some out →
      (out.result = .error .cancelled →
        out.final.retries = out.final.delays.length ∧
        out.final.retries < MAX_RETRIES) ∧
      (out.result = .error .maxRetryExceeded →
        out.final.retries = MAX_RETRIES ∧ out.final.delays.length = 2)) ∧
    (∀ (len downloaded : Int) (scratch : List Nat) (script : List Attempt),
      runSeg (some 0) len downloaded scratch script =
        some ⟨.error .cancelled, .downloading, ⟨scratch, downloaded, 0, 0, []⟩⟩) := by
  constructor
  · intro cancelAt len downloaded scratch script out h
    exact runSegAux_c5 cancelAt len script _ rfl (by dsimp only; omega) out h
  · intro len downloaded scratch script
    rw [runSeg, runSegAux.eq_def]
    rfl

/-- Witness for C5: cancellation observed after one transport-error retry
returns `Cancelled` with the counter equal to the single sleep performed,
and a pre-cancelled token returns `Cancelled` untouched. -/
theorem c5_cancelled_not_retry_witness :
    (runSeg (some 1) 10 0 [] [.sendErr, .response [.data [1]]] =
        some ⟨.error .cancelled, .downloading, ⟨[], 0, 1, 1, [200]⟩⟩) ∧
      ((⟨.error .cancelled, .downloading, ⟨[], 0, 1, 1, [200]⟩⟩ :
          GrabOutcome).final.retries =
        (⟨.error .cancelled, .downloading, ⟨[], 0, 1, 1, [200]⟩⟩ :
          GrabOutcome).final.delays.length ∧
        (⟨.error .cancelled, .downloading, ⟨[], 0, 1, 1, [200]⟩⟩ :
          GrabOutcome).final.retries < MAX_RETRIES) ∧
      runSeg (some 0) 10 5 [9, 9, 9, 9, 9] [.response [.data [1]]] =
        some ⟨.error .cancelled, .downloading, ⟨[9, 9, 9, 9, 9], 5, 0, 0, []⟩⟩ :=
  ⟨by rfl,
    (c5_cancelled_not_retry.1 (some 1) 10 0 [] [.sendErr, .response [.data [1]]]
        ⟨.error .cancelled, .downloading, ⟨[], 0, 1, 1, [200]⟩⟩ (by rfl)).1 (by rfl),
    c5_cancelled_not_retry.2 10 5 [9, 9, 9, 9, 9] [.response [.data [1]]]⟩

/-!
## C7 — the progress notifier
-/

lemma updateSP_bytes (now : ℚ) (e : ProgressEvent) (sp : SegmentProgress) :
    (updateSP now e sp).bytes_downloaded = sp.bytes_downloaded + e.bytes_delta := by
  unfold updateSP
  dsimp only
  split <;> rfl

lemma updateSP_id (now : ℚ) (e : ProgressEvent) (sp : SegmentProgress) :
    (updateSP now e sp).segment_id = sp.segment_id := by
  unfold updateSP
  dsimp only
  split <;> rfl

lemma sum_bytes_update (now : ℚ) (e : ProgressEvent) :
    ∀ l : List SegmentProgress,
      (l.map (fun sp => sp.segment_id)).Nodup →
      (∃ sp ∈ l, sp.segment_id = e.segment_id) →
      ((l.map (fun sp =>
          if sp.segment_id == e.segment_id then updateSP now e sp else sp)).map
        (fun sp => sp.bytes_downloaded)).sum =
      (l.map (fun sp => sp.bytes_downloaded)).sum + e.bytes_delta
  | [], _, hex => by simp at hex
  | sp :: l, hnd, hex => by
    rw [List.map_cons, List.nodup_cons] at hnd
    by_cases hid : sp.segment_id = e.segment_id
    · rw [List.map_cons, if_pos (by simpa using hid)]
      have hcond : ∀ sp' ∈ l, ¬ ((sp'.segment_id == e.segment_id) = true) := by
        intro sp' hsp' hcontra
        rw [beq_iff_eq] at hcontra
        exact hnd.1 (List.mem_map.mpr ⟨sp', hsp', by rw [hcontra, hid]⟩)
      have htail : (l.map (fun sp' =>
          if sp'.segment_id == e.segment_id then updateSP now e sp' else sp')) = l := by
        refine (List.map_congr_left ?_).trans (List.map_id l)
        intro sp' hsp'
        rw [if_neg (hcond sp' hsp')]
        rfl
      rw [htail, List.map_cons, List.sum_cons, List.map_cons, List.sum_cons,
        updateSP_bytes]
      omega
    · rw [List.map_cons, if_neg (by simpa using hid)]
      have hex' : ∃ sp' ∈ l, sp'.segment_id = e.segment_id := by
        rcases hex with ⟨sp', hmem, hid'⟩
        rcases List.mem_cons.mp hmem with rfl | hmem'
        · exact absurd hid' hid
        · exact ⟨sp', hmem', hid'⟩
      rw [List.map_cons, List.sum_cons, List.map_cons, List.sum_cons,
        sum_bytes_update now e l hnd.2 hex']
      omega

lemma handleEvent_ids (st : NotifierState) (now : ℚ) (e : ProgressEvent) :
    ((handleEvent st now e).segments.map (fun sp => sp.segment_id)) =
      (if st.segments.any (fun sp => sp.segment_id == e.segment_id) then
        st.segments.map (fun sp => sp.segment_id)
      else st.segments.map (fun sp => sp.segment_id) ++ [e.segment_id]) := by
  unfold handleEvent
  dsimp only
  split
  · rw [List.map_map]
    apply List.map_congr_left
    intro sp _
    simp only [Function.comp_apply]
    split
    · rw [updateSP_id]
    · rfl
  · rw [List.map_map, List.map_append]
    congr 1
    · apply List.map_congr_left
      intro sp _
      simp only [Function.comp_apply]
      split
      · rw [updateSP_id]
      · rfl
    · simp only [List.map_cons, List.map_nil, Function.comp_apply]
      split
      · rw [updateSP_id]
      · rfl

lemma handleEvent_nodup (st : NotifierState) (now : ℚ) (e : ProgressEvent)
    (h : (st.segments.map (fun sp => sp.segment_id)).Nodup) :
    ((handleEvent st now e).segments.map (fun sp => sp.segment_id)).Nodup := by
  rw [handleEvent_ids]
  split
  · exact h
  · next habs =>
    rw [List.nodup_append]
    refine ⟨h, List.nodup_singleton _, ?_⟩
    intro x hx
    simp only [List.mem_singleton]
    intro hxe
    subst hxe
    rcases List.mem_map.mp hx with ⟨sp, hsp, hideq⟩
    exact habs (List.any_eq_true.mpr ⟨sp, hsp, by simp [hideq]⟩)

lemma handleEvent_total (st : NotifierState) (now : ℚ) (e : ProgressEvent)
    (h : (st.segments.map (fun sp => sp.segment_id)).Nodup) :
    totalDownloaded (handleEvent st now e) =
      totalDownloaded st + e.bytes_delta := by
  unfold handleEvent totalDownloaded
  dsimp only
  split
  · next hany =>
    rcases List.any_eq_true.mp hany with ⟨sp, hsp, hbeq⟩
    exact sum_bytes_update now e st.segments h ⟨sp, hsp, by simpa using hbeq⟩
  · next habs =>
    have hnd : ((st.segments ++
        [(⟨e.segment_id, 0, e.total_bytes.getD 0, 0, now⟩ : SegmentProgress)]).map
        (fun sp => sp.segment_id)).Nodup := by
      rw [List.map_append, List.nodup_append]
      refine ⟨h, List.nodup_singleton _, ?_⟩
      intro x hx
      simp only [List.map_cons, List.map_nil, List.mem_singleton]
      intro hxe
      subst hxe
      rcases List.mem_map.mp hx with ⟨sp, hsp, hideq⟩
      exact habs (List.any_eq_true.mpr ⟨sp, hsp, by simp [hideq]⟩)
    rw [sum_bytes_update now e _ hnd
      ⟨(⟨e.segment_id, 0, e.total_bytes.getD 0, 0, now⟩ : SegmentProgress), by simp, rfl⟩]
    simp

lemma processMsgs_total :
    ∀ (msgs : List Msg) (st : NotifierState),
      (st.segments.map (fun sp => sp.segment_id)).Nodup →
      totalDownloaded (processMsgs st msgs) = totalDownloaded st + sumDeltas msgs
  | [], st, _ => by simp [processMsgs, sumDeltas]
  | .ev now e :: rest, st, h => by
    rw [processMsgs]
    rw [processMsgs_total rest _ (handleEvent_nodup st now e h)]
    rw [handleEvent_total st now e h]
    simp [sumDeltas]
    omega
  | .err t :: rest, st, h => by
    rw [processMsgs]
    rw [processMsgs_total rest st h]
    simp [sumDeltas]

lemma runNotifier_error (n : Nat) (elapsed : ℚ) :
    ∀ (pre : List Msg) (st : NotifierState) (t : String) (post : List Msg),
      (∀ m ∈ pre, m.isErr = false) →
      runNotifier n elapsed st (pre ++ .err t :: post) =
        okTrace n st pre ++ (List.range n).map (fun i => ObserverCall.onError i t)
  | [], st, t, post, _ => by
    rw [List.nil_append, runNotifier, okTrace, List.nil_append]
  | .ev now e :: pre, st, t, post, h => by
    rw [List.cons_append, runNotifier, okTrace]
    rw [runNotifier_error n elapsed pre _ t post (fun m hm => h m (by simp [hm]))]
    rw [List.append_assoc]
  | .err t' :: pre, st, t, post, h => by
    have := h (.err t') (by simp)
    simp [Msg.isErr] at this

lemma runNotifier_complete (n : Nat) (elapsed : ℚ) :
    ∀ (msgs : List Msg) (st : NotifierState),
      (∀ m ∈ msgs, m.isErr = false) →
      runNotifier n elapsed st msgs =
        okTrace n st msgs ++ (List.range n).map
          (fun i => ObserverCall.onComplete i (finishSnap (processMsgs st msgs) elapsed))
  | [], st, _ => by
    rw [runNotifier, okTrace, List.nil_append, processMsgs]
  | .ev now e :: rest, st, h => by
    rw [runNotifier, okTrace, processMsgs]
    rw [runNotifier_complete n elapsed rest _ (fun m hm => h m (by simp [hm]))]
    rw [List.append_assoc]
  | .err t' :: rest, st, h => by
    have := h (.err t') (by simp)
    simp [Msg.isErr] at this

lemma okTrace_isProgress (n : Nat) :
    ∀ (msgs : List Msg) (st : NotifierState),
      ∀ c ∈ okTrace n st msgs, c.isProgress = true
  | [], st, c, hc => by simp [okTrace] at hc
  | .ev now e :: rest, st, c, hc => by
    rw [okTrace] at hc
    rcases List.mem_append.mp hc with hmap | hrest
    · rcases List.mem_map.mp hmap with ⟨i, _, rfl⟩
      rfl
    · exact okTrace_isProgress n rest _ c hrest
  | .err t :: rest, st, c, hc => by simp [okTrace] at hc

/-- C7: for any message sequence consumed by `ProgressNotifier::run`: on the
first `Err(text)` it calls `on_error(text)` on every observer and processes
no further events (messages after the error contribute nothing to the
trace); when the channel closes with no error seen, it calls `on_complete`
exactly once per observer — nothing else in the trace is an `on_complete` —
with a final snapshot whose `done` flag is true, whose ETA is 0, and whose
speed is the total bytes downloaded divided by the elapsed time. -/
theorem c7_notifier_run (n : Nat) (elapsed : ℚ) (pre post msgs : List Msg) (t : String) :
    ((∀ m ∈ pre, m.isErr = false) →
      runNotifier n elapsed initNotifier (pre ++ .err t :: post) =
        okTrace n initNotifier pre ++
          (List.range n).map (fun i => ObserverCall.onError i t)) ∧
    ((∀ m ∈ msgs, m.isErr = false) →
      runNotifier n elapsed initNotifier msgs =
        okTrace n initNotifier msgs ++
          (List.range n).map (fun i => ObserverCall.onComplete i
            (finishSnap (processMsgs initNotifier msgs) elapsed)) ∧
      (∀ c ∈ okTrace n initNotifier msgs, c.isProgress = true) ∧
      (∀ i, i < n →
        (runNotifier n elapsed initNotifier msgs).countP (isCompleteFor i) = 1) ∧
      (finishSnap (processMsgs initNotifier msgs) elapsed).done = true ∧
      (finishSnap (processMsgs initNotifier msgs) elapsed).eta_secs = 0 ∧
      (0 < elapsed →
        (finishSnap (processMsgs initNotifier msgs) elapsed).speed =
          (sumDeltas msgs : ℚ) / elapsed)) := by
  constructor
  · intro hpre
    exact runNotifier_error n elapsed pre initNotifier t post hpre
  · intro hok
    have hdec := runNotifier_complete n elapsed msgs initNotifier hok
    refine ⟨hdec, okTrace_isProgress n msgs initNotifier, ?_, rfl, rfl, ?_⟩
    · intro i hi
      rw [hdec, List.countP_append]
      have h0 : (okTrace n initNotifier msgs).countP (isCompleteFor i) = 0 := by
        rw [List.countP_eq_zero]
        intro c hc
        have := okTrace_isProgress n msgs initNotifier c hc
        cases c <;> simp_all [ObserverCall.isProgress, isCompleteFor]
      rw [h0, List.countP_map]
      have h1 : (List.range n).countP
          ((isCompleteFor i) ∘ (fun j => ObserverCall.onComplete j
            (finishSnap (processMsgs initNotifier msgs) elapsed))) =
          (List.range n).count i := by
        rfl
      rw [h1, List.count_eq_one_of_mem (List.nodup_range n) (List.mem_range.mpr hi)]
    · intro hel
      unfold finishSnap
      dsimp only
      rw [if_pos hel]
      rw [processMsgs_total msgs initNotifier (by simp [initNotifier])]
      simp [initNotifier, totalDownloaded]

/-- Witness for C7 with two observers, one progress event before an error,
and a one-event error-free run with elapsed 4 s. -/
theorem c7_notifier_run_witness :
    (runNotifier 2 4 initNotifier
        ([.ev 1 ⟨"a", 3, some 10⟩] ++ .err "boom" :: [.ev 2 ⟨"a", 1, none⟩]) =
      okTrace 2 initNotifier [.ev 1 ⟨"a", 3, some 10⟩] ++
        (List.range 2).map (fun i => ObserverCall.onError i "boom")) ∧
    (runNotifier 2 4 initNotifier [.ev 1 ⟨"a", 3, some 10⟩] =
        okTrace 2 initNotifier [.ev 1 ⟨"a", 3, some 10⟩] ++
          (List.range 2).map (fun i => ObserverCall.onComplete i
            (finishSnap (processMsgs initNotifier [.ev 1 ⟨"a", 3, some 10⟩]) 4)) ∧
      (∀ c ∈ okTrace 2 initNotifier [.ev 1 ⟨"a", 3, some 10⟩], c.isProgress = true) ∧
      (∀ i, i < 2 →
        (runNotifier 2 4 initNotifier [.ev 1 ⟨"a", 3, some 10⟩]).countP
          (isCompleteFor i) = 1) ∧
      (finishSnap (processMsgs initNotifier [.ev 1 ⟨"a", 3, some 10⟩]) 4).done = true ∧
      (finishSnap (processMsgs initNotifier [.ev 1 ⟨"a", 3, some 10⟩]) 4).eta_secs = 0 ∧
      ((0 : ℚ) < 4 →
        (finishSnap (processMsgs initNotifier [.ev 1 ⟨"a", 3, some 10⟩]) 4).speed =
          (sumDeltas [.ev 1 ⟨"a", 3, some 10⟩] : ℚ) / 4)) :=
  ⟨(c7_notifier_run 2 4 [.ev 1 ⟨"a", 3, some 10⟩] [.ev 2 ⟨"a", 1, none⟩]
      [.ev 1 ⟨"a", 3, some 10⟩] "boom").1 (by decide),
    (c7_notifier_run 2 4 [.ev 1 ⟨"a", 3, some 10⟩] [.ev 2 ⟨"a", 1, none⟩]
      [.ev 1 ⟨"a", 3, some 10⟩] "boom").2 (by decide)⟩
